import Mathlib

/-!
# AVL tree of `src/trees/AVL/tree.go`

A shallow embedding of the Go package `AVL`: an ordered map from integer keys
to integer values kept in a height-balanced binary search tree.

Modelling conventions.

* A Go `*Node` is a value of the inductive type `Node`: the constructor
  `Node.nil` is the nil pointer, `Node.node` a record with the five fields of
  the Go struct.  Every node has exactly one owner (its parent or the tree), so
  in-place mutation of a node is the construction of the updated record.
* Go `int` fields (keys, values, cached heights, `size`) are `Int`.  Keys and
  values are only compared and copied; heights and `size` change by one per
  visited node or operation, so they stay far from the 64-bit bounds.
* A nil-pointer dereference (a Go run-time panic) is the result `none`.
* The methods that have a `*Tree` receiver only to reach other methods
  (`getHeight`, `updHeight`, `balance`, the rotations) are functions of the
  node alone; `insert` and `delete`, which also write `t.size`, take the
  current `size` and return the new one together with the new subtree root.
-/

namespace AVL

/-- A Go value of type `*Node` (tree.go, lines 8-14). -/
inductive Node where
  | nil : Node
  | node (Key Value : Int) (Left Right : Node) (Height : Int) : Node
  deriving DecidableEq

/-- The Go test `node == nil`. -/
def Node.isNil : Node → Bool
  | .nil => true
  | .node _ _ _ _ _ => false

/-- A Go value of type `Tree` (tree.go, lines 16-19). -/
structure Tree where
  Root : Node
  size : Int
  deriving DecidableEq

/-- `New` (tree.go, lines 25-27). -/
def New : Tree := ⟨Node.nil, 0⟩

/-- `Tree.Size` (tree.go, lines 33-35). -/
def Tree.Size (t : Tree) : Int := t.size

/-- `comparator` (tree.go, lines 53-61). -/
def comparator (a b : Int) : Int :=
  if a < b then -1
  else if a > b then 1
  else 0

/-- `Node.maximumNode` (tree.go, lines 67-75): follow `Right` links until the
node whose `Right` is nil. -/
def maximumNode : Node → Node
  | .nil => .nil
  | .node k v l r h => if r.isNil then .node k v l r h else maximumNode r

/-- `Tree.getHeight` (tree.go, lines 84-89): the cached height, -1 for nil. -/
def getHeight : Node → Int
  | .nil => -1
  | .node _ _ _ _ h => h

/-- `Tree.updHeight` (tree.go, lines 95-104): recompute the cached height of a
node from the cached heights of its children. -/
def updHeight : Node → Node
  | .nil => .nil
  | .node k v l r _ =>
    if getHeight l ≥ getHeight r then .node k v l r (getHeight l + 1)
    else .node k v l r (getHeight r + 1)

/-- `Tree.getBalanceFactor` (tree.go, lines 154-159). -/
def getBalanceFactor : Node → Int
  | .nil => 0
  | .node _ _ l r _ => getHeight l - getHeight r

/-- `Tree.rotateRight` (tree.go, lines 168-175).  Reading `node.Left` of a nil
`node`, or `newRoot.Right` of a nil `newRoot`, is a panic. -/
def rotateRight : Node → Option Node
  | .nil => none
  | .node _ _ .nil _ _ => none
  | .node k v (.node lk lv ll lr lh) r h =>
    some (updHeight (.node lk lv ll (updHeight (.node k v lr r h)) lh))

/-- `Tree.rotateLeft` (tree.go, lines 184-191). -/
def rotateLeft : Node → Option Node
  | .nil => none
  | .node _ _ _ .nil _ => none
  | .node k v l (.node rk rv rl rr rh) h =>
    some (updHeight (.node rk rv (updHeight (.node k v l rl h)) rr rh))

/-- `Tree.balance` (tree.go, lines 200-218). -/
def balance (node : Node) : Option Node :=
  let node := updHeight node
  let balanceFactor := getBalanceFactor node
  if balanceFactor > 1 then
    match node with
    | .nil => none
    | .node k v l r h =>
      if getBalanceFactor l ≥ 0 then rotateRight (.node k v l r h)
      else (rotateLeft l).bind fun l1 => rotateRight (.node k v l1 r h)
  else if balanceFactor < -1 then
    match node with
    | .nil => none
    | .node k v l r h =>
      if getBalanceFactor r ≤ 0 then rotateLeft (.node k v l r h)
      else (rotateRight r).bind fun r1 => rotateLeft (.node k v l r1 h)
  else some node

/-- `Tree.insert` (tree.go, lines 125-137).  The first argument is `t.size`
before the call; the result is the new subtree root and `t.size` after it. -/
def insert (size : Int) : Node → Int → Int → Option (Node × Int)
  | .nil, key, value => some (.node key value .nil .nil 0, size + 1)
  | .node k v l r h, key, value =>
    if comparator key k = -1 then
      (insert size l key value).bind fun p =>
        (balance (.node k v p.1 r h)).map fun n => (n, p.2)
    else if comparator key k = 1 then
      (insert size r key value).bind fun p =>
        (balance (.node k v l p.1 h)).map fun n => (n, p.2)
    else
      (balance (.node k value l r h)).map fun n => (n, size)

/-- `Tree.delete` (tree.go, lines 228-250).  The first argument is `t.size`
before the call; the result is the new subtree root and `t.size` after it.
In the two-children case `maximumNode` is called on `node` itself (line 242),
as in the source. -/
def delete (size : Int) : Node → Int → Option (Node × Int)
  | .nil, _ => some (.nil, size)
  | .node k v l r h, key =>
    if comparator key k = -1 then
      (delete size l key).bind fun p => some (updHeight (.node k v p.1 r h), p.2)
    else if comparator key k = 1 then
      (delete size r key).bind fun p => some (updHeight (.node k v l p.1 h), p.2)
    else
      if l.isNil then (balance r).map fun n => (n, size - 1)
      else if r.isNil then (balance l).map fun n => (n, size - 1)
      else
        match maximumNode (.node k v l r h) with
        | .nil => none
        | .node mk mv _ _ _ =>
          (delete (size - 1) l mk).bind fun p =>
            some (updHeight (.node mk mv p.1 r h), p.2)

/-- `Tree.Put` (tree.go, lines 111-113). -/
def Tree.Put (t : Tree) (key value : Int) : Option Tree :=
  (insert t.size t.Root key value).map fun p => ⟨p.1, p.2⟩

/-- `Tree.Remove` (tree.go, lines 143-145). -/
def Tree.Remove (t : Tree) (key : Int) : Option Tree :=
  (delete t.size t.Root key).map fun p => ⟨p.1, p.2⟩

/-- The keys appended by `PreOrderTravers` (tree.go, lines 260-268), in the
order in which they are appended. -/
def preOrderKeys : Node → List Int
  | .nil => []
  | .node k _ l r _ => k :: (preOrderKeys l ++ preOrderKeys r)

/-- The keys appended by `InOrderTravers` (tree.go, lines 278-286), in the
order in which they are appended. -/
def inOrderKeys : Node → List Int
  | .nil => []
  | .node k _ l r _ => inOrderKeys l ++ k :: inOrderKeys r

/-- The keys appended by `PostOrderTravers` (tree.go, lines 296-304), in the
order in which they are appended. -/
def postOrderKeys : Node → List Int
  | .nil => []
  | .node k _ l r _ => postOrderKeys l ++ (postOrderKeys r ++ [k])

/-- The number of nodes reachable from a node. -/
def countNodes : Node → Nat
  | .nil => 0
  | .node _ _ l r _ => countNodes l + countNodes r + 1

/-- The loop of `LevelOrderTravers` (tree.go, lines 321-331): dequeue the
front node, record its key, enqueue its non-nil children left then right.  The
queue only ever holds non-nil nodes; the first argument bounds the number of
iterations. -/
def levelOrderLoop : Nat → List Node → List Int
  | 0, _ => []
  | _, [] => []
  | _ + 1, .nil :: _ => []
  | fuel + 1, .node k _ l r _ :: queue =>
    k :: levelOrderLoop fuel
      ((if l.isNil then queue else queue ++ [l]) ++ (if r.isNil then [] else [r]))

/-- The keys appended by `LevelOrderTravers` (tree.go, lines 314-333).  Each
iteration dequeues one node of the tree, so `countNodes root` iterations
empty the queue. -/
def levelOrderKeys (root : Node) : List Int :=
  if root.isNil then [] else levelOrderLoop (countNodes root) [root]

/-- The (key, value) pairs of the nodes in in-order (left subtree, node, right
subtree), the visiting order of `InOrderTravers`. -/
def inOrder : Node → List (Int × Int)
  | .nil => []
  | .node k v l r _ => inOrder l ++ (k, v) :: inOrder r

/-- The true height of a subtree: -1 for the empty subtree, 0 for a leaf. -/
def height : Node → Int
  | .nil => -1
  | .node _ _ l r _ => 1 + max (height l) (height r)

/-- A call of one of the two public mutating methods. -/
inductive Op where
  | put (key value : Int) : Op
  | remove (key : Int) : Op
  deriving DecidableEq

/-- Perform one public operation. -/
def Tree.apply (t : Tree) : Op → Option Tree
  | .put key value => t.Put key value
  | .remove key => t.Remove key

/-- Perform a sequence of public operations, first to last. -/
def run : List Op → Tree → Option Tree
  | [], t => some t
  | op :: ops, t => (t.apply op).bind (run ops)

/-- The operation sequence `Put(k1, v1); Put(k2, v2); ...`. -/
def puts (kvs : List (Int × Int)) : List Op :=
  kvs.map fun kv => Op.put kv.1 kv.2

/-- Every cached `Height` agrees with the cached heights of the children:
`Height = 1 + max (getHeight Left) (getHeight Right)`. -/
def HeightOk : Node → Prop
  | .nil => True
  | .node _ _ l r h => HeightOk l ∧ HeightOk r ∧ h = 1 + max (getHeight l) (getHeight r)

/-- Insertion of a binding into a list of (key, value) pairs sorted by key:
the reference behaviour of `Put` on the in-order sequence. -/
def insList (k v : Int) : List (Int × Int) → List (Int × Int)
  | [] => [(k, v)]
  | (a, b) :: xs =>
    if k < a then (k, v) :: (a, b) :: xs
    else if a < k then (a, b) :: insList k v xs
    else (k, v) :: xs

/-- A list of (key, value) pairs whose keys are strictly increasing. -/
def KeySorted (xs : List (Int × Int)) : Prop :=
  xs.Pairwise fun a b => a.1 < b.1

/-- The in-order sequence expected after `Put(k1, v1); Put(k2, v2); ...` on a
tree whose in-order sequence is `xs`. -/
def insAll (kvs : List (Int × Int)) (xs : List (Int × Int)) : List (Int × Int) :=
  kvs.foldl (fun acc kv => insList kv.1 kv.2 acc) xs

/-- The binary-search-tree property at every node: all keys of the left
subtree are smaller and all keys of the right subtree are larger than the key
of the node. -/
def IsBST : Node → Prop
  | .nil => True
  | .node k _ l r _ =>
    IsBST l ∧ IsBST r ∧ (∀ x ∈ inOrderKeys l, x < k) ∧ (∀ x ∈ inOrderKeys r, k < x)

/-- Height balance at every node, on the true subtree heights. -/
def Balanced : Node → Prop
  | .nil => True
  | .node _ _ l r _ => Balanced l ∧ Balanced r ∧ |height l - height r| ≤ 1

/-- The reference set of keys after a sequence of operations on the empty set:
`Put(k, _)` adds `k`, `Remove(k)` deletes `k` if present. -/
def refSet (ops : List Op) : Finset Int :=
  ops.foldl (fun s op =>
    match op with
    | .put k _ => Insert.insert k s
    | .remove k => s.erase k) ∅

/-- The value given to key `k` by the last `Put(k, _)` of the sequence (0 when
the sequence has no Put of `k`). -/
def lastValue (kvs : List (Int × Int)) (k : Int) : Int :=
  ((kvs.reverse.find? fun kv => kv.1 = k).map Prod.snd).getD 0

/-- The reference association of a sequence of Puts: the distinct keys
inserted, in increasing order, each with the value of its last Put. -/
def refAssoc (kvs : List (Int × Int)) : List (Int × Int) :=
  ((kvs.map Prod.fst).dedup.insertionSort (· ≤ ·)).map fun k => (k, lastValue kvs k)

/-- Every cached `Height` equals `1 + max (height Left) (height Right)`,
computed on the actual subtrees (so a leaf has `Height` 0). -/
def CachedOk : Node → Prop
  | .nil => True
  | .node _ _ l r h => CachedOk l ∧ CachedOk r ∧ h = 1 + max (height l) (height r)

/-- The AVL invariant on the cached heights: every cached height is consistent
with the children and the children differ in height by at most one. -/
def Avl : Node → Prop
  | .nil => True
  | .node _ _ l r h =>
    Avl l ∧ Avl r ∧ h = 1 + max (getHeight l) (getHeight r) ∧
      getHeight l ≤ getHeight r + 1 ∧ getHeight r ≤ getHeight l + 1

/-- The number of levels of a subtree: 0 for the empty subtree, 1 for a leaf;
one more than `height`. -/
def levels : Node → Nat
  | .nil => 0
  | .node _ _ l r _ => 1 + max (levels l) (levels r)

/-- The least number of nodes of a height-balanced tree with `n` levels. -/
def minNodesOfLevels : Nat → Nat
  | 0 => 0
  | 1 => 1
  | n + 2 => minNodesOfLevels (n + 1) + minNodesOfLevels n + 1

/-- The bound `N` on the node count of a tree of height `h`: `N(-1) = 0`,
`N(0) = 1`, `N(h) = N(h-1) + N(h-2) + 1`. -/
def N (h : Int) : Nat := minNodesOfLevels (h + 1).toNat

/-- `strconv.Itoa`: the decimal rendering of an integer, with a leading minus
sign for a negative one. -/
def Itoa : Int → String
  | .ofNat m => String.mk (Nat.toDigits 10 m)
  | .negSucc m => "-" ++ String.mk (Nat.toDigits 10 (m + 1))

/-- `Tree.PreOrderTravers` (tree.go, lines 260-268). -/
def PreOrderTravers : Node → String
  | .nil => ""
  | .node k _ l r _ =>
    ((("" ++ (Itoa k ++ " ")) ++ (PreOrderTravers l ++ " ")) ++ (PreOrderTravers r ++ " "))

/-- `Tree.InOrderTravers` (tree.go, lines 278-286). -/
def InOrderTravers : Node → String
  | .nil => ""
  | .node k _ l r _ =>
    ((("" ++ (InOrderTravers l ++ " ")) ++ (Itoa k ++ " ")) ++ (InOrderTravers r ++ " "))

/-- `Tree.PostOrderTravers` (tree.go, lines 296-304). -/
def PostOrderTravers : Node → String
  | .nil => ""
  | .node k _ l r _ =>
    ((("" ++ (PostOrderTravers l ++ " ")) ++ (PostOrderTravers r ++ " ")) ++ (Itoa k ++ " "))

/-- The loop of `LevelOrderTravers` (tree.go, lines 321-331) on the string
`str` built so far; the first argument bounds the number of iterations. -/
def levelOrderStrLoop : Nat → List Node → String → String
  | 0, _, str => str
  | _, [], str => str
  | _ + 1, .nil :: _, str => str
  | fuel + 1, .node k _ l r _ :: queue, str =>
    levelOrderStrLoop fuel
      ((if l.isNil then queue else queue ++ [l]) ++ (if r.isNil then [] else [r]))
      (str ++ (Itoa k ++ " "))

/-- `Tree.LevelOrderTravers` (tree.go, lines 314-333).  Each iteration dequeues
one node of the tree, so `countNodes root` iterations empty the queue. -/
def LevelOrderTravers (root : Node) : String :=
  if root.isNil then "" else levelOrderStrLoop (countNodes root) [root] ""

/-- `Output` (tree.go, lines 346-375) for a non-nil `str`: the argument `s` is
the string `str` points to before the call, the result the string it points to
after the call.  (For a nil `str` the function returns at once.) -/
def Output : Node → String → Bool → String → String
  | .nil, _, _, s => s
  | .node k _ l r _, pfx, isTail, s =>
    let s1 :=
      if r.isNil then s
      else Output r (if isTail then pfx ++ "    " else pfx ++ "    ") false s
    let s2 := s1 ++ pfx
    let s3 := if isTail then s2 ++ "└── " else s2 ++ "┌── "
    let s4 := s3 ++ (Itoa k ++ "\n")
    if l.isNil then s4
    else Output l (if isTail then pfx ++ "    " else pfx ++ "    ") true s4

/-- The pieces of a string between its space characters. -/
def splitSpaces : List Char → List (List Char)
  | [] => [[]]
  | c :: cs =>
    if c = ' ' then [] :: splitSpaces cs
    else
      match splitSpaces cs with
      | [] => [[c]]
      | w :: ws => (c :: w) :: ws

/-- The non-empty pieces of a string between its space characters. -/
def tokenChars (cs : List Char) : List (List Char) :=
  (splitSpaces cs).filter fun w => w ≠ []

/-- The tokens of a string: its maximal runs of characters other than the
space, in order. -/
def tokens (s : String) : List String :=
  (tokenChars s.data).map String.mk

/-- The decimal renderings of a key sequence, each followed by one space. -/
def eachFollowedBySpace (ks : List Int) : String :=
  ks.foldr (fun k s => (Itoa k ++ " ") ++ s) ""

/-- The decimal renderings of a key sequence with exactly one space between
consecutive keys. -/
def singleSpaced (ks : List Int) : String :=
  " ".intercalate (ks.map Itoa)

/-- The keys of the nodes at depth `d` of a subtree (its root has depth 0),
listed left to right. -/
def keysAtDepth : Nat → Node → List Int
  | _, .nil => []
  | 0, .node k _ _ _ _ => [k]
  | d + 1, .node _ _ l r _ => keysAtDepth d l ++ keysAtDepth d r

/-- The breadth-first reference: the concatenation, for depth d = 0, 1, 2, ...
up to the last level of the tree, of the keys of the nodes at depth `d` listed
left to right. -/
def keysByDepth (t : Node) : List Int :=
  (List.range (levels t)).flatMap fun d => keysAtDepth d t

/-- The non-nil children of a node, left then right: what one iteration of the
loop of `LevelOrderTravers` appends to the queue. -/
def children : Node → List Node
  | .nil => []
  | .node _ _ l r _ => (if l.isNil then [] else [l]) ++ (if r.isNil then [] else [r])

/-- The number of nodes of a list of subtrees. -/
def forestSize (q : List Node) : Nat := (q.map countNodes).sum

/-- The keys of a list of subtrees level by level, for the depths below `D`. -/
def forestLevels (D : Nat) (q : List Node) : List Int :=
  (List.range D).flatMap fun d => q.flatMap (keysAtDepth d)

end AVL

/-!
# Graph of `src/graph/graph.go`

A shallow embedding of the Go package `graph`.

* The map `Adj` is a function from vertex names to `Option (List Edge)`,
  `none` for a key that is not in the map; the iteration order of a Go map is
  not modelled (only `DFS`, `Print` and `FindMinSpanningTree` depend on it).
* The map `parent` of `KruskalsAlgorithm` is a function from vertex names to
  vertex names, the empty string for a key that is not in the map, as a Go map
  lookup yields.
* Slices are lists; the in-place `insertionSort` returns the sorted list.
* The `for parent[src] != ""` loops of `KruskalsAlgorithm` take a bound on the
  number of iterations and yield `none` when it is exceeded.
* Output written with `fmt` is not modelled.
-/

namespace graph

/-- The Go type `Edge` (graph.go, lines 119-122). -/
structure Edge where
  src : String
  dest : String
  weight : Int
  deriving DecidableEq

/-- The Go type `Graph` (graph.go, lines 7-10). -/
structure Graph where
  V : Int
  Adj : String → Option (List Edge)

/-- `NewGraph` (graph.go, lines 12-14). -/
def NewGraph (v : Int) : Graph := ⟨v, fun _ => none⟩

/-- The Go expression `g.Adj[v]`: the nil slice for a key that is not in the
map. -/
def Graph.adj (g : Graph) (v : String) : List Edge := (g.Adj v).getD []

/-- The Go statement `g.Adj[v] = es`. -/
def Graph.setAdj (g : Graph) (v : String) (es : List Edge) : Graph :=
  ⟨g.V, fun k => if k = v then some es else g.Adj k⟩

/-- `Graph.AddEdge` (graph.go, lines 16-42) on a non-nil graph. -/
def Graph.AddEdge (g : Graph) (v w : String) (weight : Int) : Graph :=
  if v = "" ∨ w = "" then g
  else if (g.adj v).any fun edge => edge.dest = w ∧ edge.weight = weight then g
  else
    let g1 := g.setAdj v (g.adj v ++ [⟨v, w, weight⟩])
    let g2 := if (g1.Adj w).isSome then g1 else g1.setAdj w []
    g2.setAdj w (g2.adj w ++ [⟨w, v, weight⟩])

/-- Perform a sequence of `AddEdge(v, w, weight)` calls, first to last. -/
def addEdges (g : Graph) (calls : List (String × String × Int)) : Graph :=
  calls.foldl (fun g c => g.AddEdge c.1 c.2.1 c.2.2) g

/-- `compareEdges` (graph.go, lines 124-133). -/
def compareEdges (edge1 edge2 : Edge) (weight : Bool) : Bool :=
  if weight then edge1.weight > edge2.weight
  else if edge1.src ≠ edge2.src then edge1.src > edge2.src
  else edge1.dest > edge2.dest

/-- The inner loop of `insertionSort` (graph.go, lines 141-145).  The argument
list is the part `arr[0..i-1]` of the array in reverse order, so that its head
is `arr[j]` for the first `j = i - 1`; elements that compare greater than `key`
are moved one place up and `key` is stored below them.  The result is
`arr[0..i]` in reverse order. -/
def shiftLoop (key : Edge) (weightSort : Bool) : List Edge → List Edge
  | [] => [key]
  | x :: xs =>
    if compareEdges x key weightSort then x :: shiftLoop key weightSort xs
    else key :: x :: xs

/-- `insertionSort` (graph.go, lines 135-148): the elements are inserted one
after the other into the sorted part of the array before them. -/
def insertionSort (arr : List Edge) (weightSort : Bool) : List Edge :=
  (arr.foldl (fun sortedRev key => shiftLoop key weightSort sortedRev) []).reverse

/-- The loops `for parent[src] != ""` with body `src = parent[src]` of
`KruskalsAlgorithm` (graph.go, lines 160-165), with a bound on the number of
evaluations of the loop condition. -/
def findRoot (parent : String → String) : Nat → String → Option String
  | 0, _ => none
  | fuel + 1, src => if parent src ≠ "" then findRoot parent fuel (parent src) else some src

/-- The variables of the loop of `KruskalsAlgorithm`. -/
structure KState where
  parent : String → String
  minSpanningTree : List Edge
  count : Int

/-- The loop of `KruskalsAlgorithm` over the sorted edges (graph.go, lines
155-176); `fuel` bounds each of the two root searches of an iteration. -/
def kruskalLoop (fuel : Nat) (numVertices : Int) : List Edge → KState → Option (List Edge)
  | [], st => some st.minSpanningTree
  | e :: rest, st =>
    match findRoot st.parent fuel e.src, findRoot st.parent fuel e.dest with
    | some srcParent, some destParent =>
      let st1 : KState :=
        if srcParent ≠ destParent then
          ⟨fun k => if k = destParent then srcParent else st.parent k,
            st.minSpanningTree ++ [e], st.count + 1⟩
        else st
      if st1.count = numVertices - 1 then some st1.minSpanningTree
      else kruskalLoop fuel numVertices rest st1
    | _, _ => none

/-- `KruskalsAlgorithm` (graph.go, lines 150-178). -/
def KruskalsAlgorithm (fuel : Nat) (edges : List Edge) (numVertices : Int) :
    Option (List Edge) :=
  kruskalLoop fuel numVertices (insertionSort edges true) ⟨fun _ => "", [], 0⟩

/-- The vertex names that occur in a list of edges, each once. -/
def vertices (edges : List Edge) : List String :=
  (edges.flatMap fun e => [e.src, e.dest]).dedup

/-- Two vertex names are joined by a path of edges of `es`, every edge being
usable in both directions (a name is joined to itself). -/
def Reach (es : List Edge) : String → String → Prop :=
  Relation.EqvGen fun a b => ∃ e ∈ es, e.src = a ∧ e.dest = b

/-- The sum of the weights of a list of edges. -/
def totalWeight (es : List Edge) : Int := (es.map Edge.weight).sum

/-- A spanning tree of the graph given by the edge list `edges`: one edge less
than there are vertices, all taken from `edges`, joining every two vertices. -/
def IsSpanningTree (edges T : List Edge) : Prop :=
  (∀ e ∈ T, e ∈ edges) ∧ T.length + 1 = (vertices edges).length ∧
    ∀ u ∈ vertices edges, ∀ v ∈ vertices edges, Reach T u v

/-- The function `rep` names the connected components of the edge list `es`:
two names have the same value exactly when they are joined. -/
def Represents (rep : String → String) (es : List Edge) : Prop :=
  ∀ x y, Reach es x y ↔ rep x = rep y

/-- The representative function after the components of `a` and `b` are
united. -/
def mergeRep (rep : String → String) (a b : String) : String → String :=
  fun x => if rep x = rep b then rep a else rep x

/-- The map `parent` is a forest of trees directed to their roots: `rep x` is
the root of the tree of `x`, reached from `x` in `dep x` steps, and the roots
are the names whose `parent` entry is empty. -/
def Forest (parent rep : String → String) (dep : String → Nat) : Prop :=
  (∀ x, parent x = "" → rep x = x ∧ dep x = 0) ∧
    (∀ x, parent x ≠ "" → rep x = rep (parent x) ∧ dep x = dep (parent x) + 1) ∧
    (∀ x, parent (rep x) = "") ∧ (∀ x, x ≠ "" → rep x ≠ "")

/-- For every weight threshold `t` the edges of `K` of weight at most `t`
leave as many components among the vertices `V` as `V` has elements less
their number, and they join the ends of every edge of `P` of weight at most
`t`. -/
def Thresholds (V : Finset String) (P K : List Edge) : Prop :=
  ∀ t : Int, ∃ rep : String → String,
    (V.image rep).card + (K.countP fun e => e.weight ≤ t) = V.card ∧
      ∀ e ∈ P, e.weight ≤ t → rep e.src = rep e.dest

/-- The invariant of the loop of `KruskalsAlgorithm` after the edges `P` have
been processed. -/
def KInv (V : Finset String) (P : List Edge) (st : KState) : Prop :=
  ∃ (rep : String → String) (dep : String → Nat),
    Forest st.parent rep dep ∧ (∀ x, dep x ≤ st.minSpanningTree.length) ∧
      Represents rep st.minSpanningTree ∧
      (V.image rep).card + st.minSpanningTree.length = V.card ∧
      st.minSpanningTree.Sublist P ∧ (∀ e ∈ P, rep e.src = rep e.dest) ∧
      st.count = st.minSpanningTree.length ∧ Thresholds V P st.minSpanningTree

/-- What the loop of `KruskalsAlgorithm` establishes for its result `mst` on
the sorted edge list `S`. -/
def KPost (V : Finset String) (S mst : List Edge) : Prop :=
  mst.Sublist S ∧
    (∃ rep : String → String, Represents rep mst ∧
      (V.image rep).card + mst.length = V.card ∧
      ((∀ e ∈ S, rep e.src = rep e.dest) ∨ mst.length + 1 = V.card)) ∧
    Thresholds V S mst

/-- The edge list forms a connected graph: it has at least one vertex and
every two of its vertices are joined. -/
def ConnectedGraph (edges : List Edge) : Prop :=
  vertices edges ≠ [] ∧ ∀ u ∈ vertices edges, ∀ v ∈ vertices edges, Reach edges u v

/-- The adjacency list of `v` has an edge to `w` of weight `x`. -/
def Graph.hasEdge (g : Graph) (v w : String) (x : Int) : Prop :=
  ∃ e ∈ g.adj v, e.dest = w ∧ e.weight = x

/-- No adjacency list has two edges with the same (dest, weight) pair. -/
def Graph.NoDuplicates (g : Graph) : Prop :=
  ∀ v, ((g.adj v).map fun e => (e.dest, e.weight)).Nodup

/-- The adjacency is symmetric: `v` has an edge to `w` of weight `x` exactly
when `w` has an edge to `v` of weight `x`. -/
def Graph.Symmetric (g : Graph) : Prop :=
  ∀ v w x, g.hasEdge v w x ↔ g.hasEdge w v x

end graph

namespace AVL

/-! ## Cached heights and the balancer -/

theorem getHeight_nil : getHeight Node.nil = -1 := rfl

theorem getHeight_node (k v : Int) (l r : Node) (h : Int) :
    getHeight (Node.node k v l r h) = h := rfl

theorem getBalanceFactor_node (k v : Int) (l r : Node) (h : Int) :
    getBalanceFactor (Node.node k v l r h) = getHeight l - getHeight r := rfl

theorem HeightOk.neg_one_le {t : Node} (ht : HeightOk t) : -1 ≤ getHeight t := by
  induction t with
  | nil => simp [getHeight]
  | node k v l r h ihl ihr =>
    obtain ⟨hl, hr, hh⟩ := ht
    have := ihl hl
    have := ihr hr
    rw [getHeight_node]
    omega

theorem HeightOk.isNil_of_neg {t : Node} (ht : HeightOk t) (h : getHeight t < 0) :
    t = Node.nil := by
  cases t with
  | nil => rfl
  | node k v l r h0 =>
    obtain ⟨hl, hr, hh⟩ := ht
    have := hl.neg_one_le
    have := hr.neg_one_le
    rw [getHeight_node] at h
    omega

theorem updHeight_node (k v : Int) (l r : Node) (h : Int) :
    updHeight (Node.node k v l r h) =
      Node.node k v l r (1 + max (getHeight l) (getHeight r)) := by
  simp only [updHeight]
  split_ifs with hc
  · rw [max_eq_left hc, add_comm]
  · rw [max_eq_right (le_of_lt (not_le.mp hc)), add_comm]

theorem HeightOk.updHeight {k v : Int} {l r : Node} (h : Int) (hl : HeightOk l)
    (hr : HeightOk r) : HeightOk (updHeight (Node.node k v l r h)) := by
  rw [updHeight_node]
  exact ⟨hl, hr, rfl⟩

theorem updHeight_of_HeightOk {t : Node} (ht : HeightOk t) : updHeight t = t := by
  cases t with
  | nil => rfl
  | node k v l r h =>
    rw [updHeight_node, ht.2.2]

theorem inOrder_updHeight (t : Node) : inOrder (updHeight t) = inOrder t := by
  cases t with
  | nil => rfl
  | node k v l r h => rw [updHeight_node]; rfl

theorem inOrder_rotateRight {t t1 : Node} (h : rotateRight t = some t1) :
    inOrder t1 = inOrder t := by
  unfold rotateRight at h
  split at h
  · cases h
  · cases h
  · cases h
    simp [updHeight_node, inOrder]

theorem inOrder_rotateLeft {t t1 : Node} (h : rotateLeft t = some t1) :
    inOrder t1 = inOrder t := by
  unfold rotateLeft at h
  split at h
  · cases h
  · cases h
  · cases h
    simp [updHeight_node, inOrder]

theorem HeightOk.rotateRight {k v lk lv : Int} {ll lr r : Node} (h lh : Int)
    (hll : HeightOk ll) (hlr : HeightOk lr) (hr : HeightOk r) :
    ∃ t1, rotateRight (Node.node k v (Node.node lk lv ll lr lh) r h) = some t1 ∧
      HeightOk t1 :=
  ⟨_, rfl, HeightOk.updHeight _ hll (HeightOk.updHeight _ hlr hr)⟩

theorem HeightOk.rotateLeft {k v rk rv : Int} {l rl rr : Node} (h rh : Int)
    (hl : HeightOk l) (hrl : HeightOk rl) (hrr : HeightOk rr) :
    ∃ t1, rotateLeft (Node.node k v l (Node.node rk rv rl rr rh) h) = some t1 ∧
      HeightOk t1 :=
  ⟨_, rfl, HeightOk.updHeight _ (HeightOk.updHeight _ hl hrl) hrr⟩

theorem balance_nil : balance Node.nil = some Node.nil := by
  simp [balance, updHeight, getBalanceFactor]

theorem inOrder_node (k v : Int) (l r : Node) (h : Int) :
    inOrder (Node.node k v l r h) = inOrder l ++ (k, v) :: inOrder r := rfl

theorem inOrder_balance {t t1 : Node} (h : balance t = some t1) :
    inOrder t1 = inOrder t := by
  cases t with
  | nil => rw [balance_nil] at h; cases h; rfl
  | node k v l r h0 =>
    simp only [balance, updHeight_node, getBalanceFactor_node] at h
    split_ifs at h with h1 h2 h3 h4
    · rw [inOrder_rotateRight h]; rfl
    · obtain ⟨l1, hl1, hrot⟩ := Option.bind_eq_some.mp h
      rw [inOrder_rotateRight hrot, inOrder_node, inOrder_rotateLeft hl1]; rfl
    · rw [inOrder_rotateLeft h]; rfl
    · obtain ⟨r1, hr1, hrot⟩ := Option.bind_eq_some.mp h
      rw [inOrder_rotateLeft hrot, inOrder_node, inOrder_rotateRight hr1]; rfl
    · cases h; rfl

theorem HeightOk.balance {k v : Int} {l r : Node} (h : Int) (hl : HeightOk l)
    (hr : HeightOk r) :
    ∃ t1, balance (Node.node k v l r h) = some t1 ∧ HeightOk t1 := by
  have hlb := hl.neg_one_le
  have hrb := hr.neg_one_le
  simp only [AVL.balance, updHeight_node, getBalanceFactor_node]
  split_ifs with h1 h2 h3 h4
  · cases l with
    | nil => simp only [getHeight_nil] at h1; omega
    | node lk lv ll lr lh => exact HeightOk.rotateRight _ _ hl.1 hl.2.1 hr
  · cases l with
    | nil => simp only [getHeight_nil] at h1; omega
    | node lk lv ll lr lh =>
      cases lr with
      | nil =>
        have := hl.1.neg_one_le
        simp only [getBalanceFactor_node, getHeight_nil] at h2; omega
      | node ak av al ar ah =>
        obtain ⟨hll, hlr, -⟩ := hl
        obtain ⟨l1, hl1, hok⟩ := HeightOk.rotateLeft (k := lk) (v := lv) lh ah hll hlr.1 hlr.2.1
        rw [hl1]
        simp only [AVL.rotateLeft, updHeight_node] at hl1
        cases hl1
        exact HeightOk.rotateRight _ _ hok.1 hok.2.1 hr
  · cases r with
    | nil => simp only [getHeight_nil] at h3; omega
    | node rk rv rl rr rh => exact HeightOk.rotateLeft _ _ hl hr.1 hr.2.1
  · cases r with
    | nil => simp only [getHeight_nil] at h3; omega
    | node rk rv rl rr rh =>
      cases rl with
      | nil =>
        have := hr.2.1.neg_one_le
        simp only [getBalanceFactor_node, getHeight_nil] at h4; omega
      | node ak av al ar ah =>
        obtain ⟨hrl, hrr, -⟩ := hr
        obtain ⟨r1, hr1, hok⟩ := HeightOk.rotateRight (k := rk) (v := rv) rh ah hrl.1 hrl.2.1 hrr
        rw [hr1]
        simp only [AVL.rotateRight, updHeight_node] at hr1
        cases hr1
        exact HeightOk.rotateLeft _ _ hl hok.1 hok.2.1
  · exact ⟨_, rfl, hl, hr, rfl⟩

theorem HeightOk.balance_any {t : Node} (ht : HeightOk t) :
    ∃ t1, AVL.balance t = some t1 ∧ HeightOk t1 := by
  cases t with
  | nil => exact ⟨_, balance_nil, trivial⟩
  | node k v l r h => exact HeightOk.balance h ht.1 ht.2.1

/-! ## Insertion -/

theorem comparator_eq_neg_one {a b : Int} : comparator a b = -1 ↔ a < b := by
  unfold comparator
  split_ifs <;> simp_all

theorem comparator_eq_one {a b : Int} : comparator a b = 1 ↔ b < a := by
  unfold comparator
  split_ifs <;> simp_all
  omega

theorem countNodes_eq_length (t : Node) : countNodes t = (inOrder t).length := by
  induction t with
  | nil => rfl
  | node k v l r h ihl ihr => simp [countNodes, inOrder, ihl, ihr]; omega

theorem inOrderKeys_eq_map (t : Node) : inOrderKeys t = (inOrder t).map Prod.fst := by
  induction t with
  | nil => rfl
  | node k v l r h ihl ihr => simp [inOrderKeys, inOrder, ihl, ihr]

theorem HeightOk.insert {t : Node} (ht : HeightOk t) (s k v : Int) :
    ∃ p, insert s t k v = some p ∧ HeightOk p.1 := by
  induction t with
  | nil => exact ⟨_, rfl, trivial, trivial, rfl⟩
  | node k0 v0 l r h ihl ihr =>
    obtain ⟨hl, hr, -⟩ := ht
    simp only [AVL.insert]
    split_ifs with h1 h2
    · obtain ⟨p, hp, hpo⟩ := ihl hl
      obtain ⟨n, hn, hno⟩ := HeightOk.balance (k := k0) (v := v0) h hpo hr
      exact ⟨(n, p.2), by simp [hp, hn], hno⟩
    · obtain ⟨p, hp, hpo⟩ := ihr hr
      obtain ⟨n, hn, hno⟩ := HeightOk.balance (k := k0) (v := v0) h hl hpo
      exact ⟨(n, p.2), by simp [hp, hn], hno⟩
    · obtain ⟨n, hn, hno⟩ := HeightOk.balance (k := k0) (v := v) h hl hr
      exact ⟨(n, s), by simp [hn], hno⟩

theorem insList_append_of_lt (k v : Int) {a : Int} (b : Int) (xs zs : List (Int × Int))
    (h : k < a) : insList k v (xs ++ (a, b) :: zs) = insList k v xs ++ (a, b) :: zs := by
  induction xs with
  | nil => simp [insList, h]
  | cons x xs ih =>
    obtain ⟨x1, x2⟩ := x
    simp only [List.cons_append, insList]
    split_ifs <;> simp [ih]

theorem insList_append_of_gt (k v : Int) (xs zs : List (Int × Int))
    (h : ∀ x ∈ xs, x.1 < k) : insList k v (xs ++ zs) = xs ++ insList k v zs := by
  induction xs with
  | nil => rfl
  | cons x xs ih =>
    obtain ⟨x1, x2⟩ := x
    have hx : x1 < k := h (x1, x2) (List.mem_cons_self _ _)
    have hx1 : ¬ k < x1 := by omega
    have ih1 := ih fun y hy => h y (List.mem_cons_of_mem _ hy)
    simp [insList, hx, hx1, ih1]

theorem mem_insList {k v : Int} {xs : List (Int × Int)} {x : Int × Int}
    (h : x ∈ insList k v xs) : x = (k, v) ∨ x ∈ xs := by
  induction xs with
  | nil => simpa [insList] using h
  | cons y ys ih =>
    obtain ⟨y1, y2⟩ := y
    simp only [insList] at h
    split_ifs at h with h1 h2
    · simpa using h
    · rcases List.mem_cons.mp h with h | h
      · exact Or.inr (h ▸ List.mem_cons_self _ _)
      · rcases ih h with h | h
        · exact Or.inl h
        · exact Or.inr (List.mem_cons_of_mem _ h)
    · rcases List.mem_cons.mp h with h | h
      · exact Or.inl h
      · exact Or.inr (List.mem_cons_of_mem _ h)

theorem KeySorted.insList {xs : List (Int × Int)} (h : KeySorted xs) (k v : Int) :
    KeySorted (insList k v xs) := by
  induction xs with
  | nil => simp [AVL.insList, KeySorted]
  | cons y ys ih =>
    obtain ⟨y1, y2⟩ := y
    unfold KeySorted at h ih ⊢
    rw [List.pairwise_cons] at h
    simp only [AVL.insList]
    split_ifs with h1 h2
    · refine List.pairwise_cons.mpr ⟨?_, List.pairwise_cons.mpr h⟩
      intro b hb
      rcases List.mem_cons.mp hb with hb | hb
      · rw [hb]; exact h1
      · exact lt_trans h1 (h.1 b hb)
    · refine List.pairwise_cons.mpr ⟨?_, ih h.2⟩
      intro b hb
      rcases mem_insList hb with hb | hb
      · rw [hb]; exact h2
      · exact h.1 b hb
    · have : k = y1 := by omega
      subst this
      exact List.pairwise_cons.mpr h

theorem inOrder_insert {t : Node} {s k v : Int} {p : Node × Int}
    (hs : KeySorted (inOrder t)) (h : insert s t k v = some p) :
    inOrder p.1 = insList k v (inOrder t) := by
  induction t generalizing p with
  | nil => cases h; rfl
  | node k0 v0 l r h0 ihl ihr =>
    unfold KeySorted at hs ihl ihr
    rw [inOrder_node, List.pairwise_append, List.pairwise_cons] at hs
    obtain ⟨hsl, ⟨hk0r, hsr⟩, hlr⟩ := hs
    simp only [insert] at h
    split_ifs at h with h1 h2
    · obtain ⟨q, hq, hb⟩ := Option.bind_eq_some.mp h
      obtain ⟨n, hn, rfl⟩ := Option.map_eq_some'.mp hb
      rw [inOrder_balance hn, inOrder_node, ihl hsl hq, inOrder_node,
        insList_append_of_lt k v v0 _ _ (comparator_eq_neg_one.mp h1)]
    · obtain ⟨q, hq, hb⟩ := Option.bind_eq_some.mp h
      obtain ⟨n, hn, rfl⟩ := Option.map_eq_some'.mp hb
      have hk : k0 < k := comparator_eq_one.mp h2
      have hk1 : ¬ k < k0 := by omega
      rw [inOrder_balance hn, inOrder_node, ihr hsr hq, inOrder_node,
        insList_append_of_gt k v _ _ fun x hx =>
          lt_trans (hlr x hx (k0, v0) (List.mem_cons_self _ _)) hk]
      simp [insList, hk, hk1]
    · obtain ⟨n, hn, rfl⟩ := Option.map_eq_some'.mp h
      have hk1 : ¬ k < k0 := fun hlt => h1 (comparator_eq_neg_one.mpr hlt)
      have hk2 : ¬ k0 < k := fun hlt => h2 (comparator_eq_one.mpr hlt)
      have hk : k = k0 := by omega
      subst hk
      rw [inOrder_balance hn, inOrder_node, inOrder_node,
        insList_append_of_gt k v _ _ fun x hx => hlr x hx (k, v0) (List.mem_cons_self _ _)]
      simp [insList]

theorem size_insert {t : Node} {s k v : Int} {p : Node × Int}
    (h : insert s t k v = some p) :
    p.2 - s = (countNodes p.1 : Int) - (countNodes t : Int) := by
  induction t generalizing p with
  | nil => cases h; simp [countNodes]
  | node k0 v0 l r h0 ihl ihr =>
    simp only [insert] at h
    split_ifs at h with h1 h2
    · obtain ⟨q, hq, hb⟩ := Option.bind_eq_some.mp h
      obtain ⟨n, hn, rfl⟩ := Option.map_eq_some'.mp hb
      have := ihl hq
      have hc := inOrder_balance hn
      simp only [countNodes_eq_length, hc, inOrder_node] at this ⊢
      simp only [List.length_append, List.length_cons]
      push_cast
      omega
    · obtain ⟨q, hq, hb⟩ := Option.bind_eq_some.mp h
      obtain ⟨n, hn, rfl⟩ := Option.map_eq_some'.mp hb
      have := ihr hq
      have hc := inOrder_balance hn
      simp only [countNodes_eq_length, hc, inOrder_node] at this ⊢
      simp only [List.length_append, List.length_cons]
      push_cast
      omega
    · obtain ⟨n, hn, rfl⟩ := Option.map_eq_some'.mp h
      have hc := inOrder_balance hn
      simp only [countNodes_eq_length, hc, inOrder_node]
      simp

/-! ## Deletion -/

theorem maximumNode_node (k v : Int) (l r : Node) (h : Int) :
    ∃ mk mv ml mr mh, maximumNode (Node.node k v l r h) = Node.node mk mv ml mr mh := by
  induction r generalizing k v l h with
  | nil => exact ⟨k, v, l, Node.nil, h, rfl⟩
  | node rk rv rl rr rh _ ihr =>
    obtain ⟨mk, mv, ml, mr, mh, hm⟩ := ihr rk rv rl rh
    exact ⟨mk, mv, ml, mr, mh, by simpa [maximumNode, Node.isNil] using hm⟩

theorem HeightOk.delete {t : Node} (ht : HeightOk t) (s k : Int) :
    ∃ p, delete s t k = some p ∧ HeightOk p.1 := by
  induction t generalizing s k with
  | nil => exact ⟨_, rfl, trivial⟩
  | node k0 v0 l r h ihl ihr =>
    obtain ⟨hl, hr, -⟩ := ht
    simp only [AVL.delete]
    split_ifs with h1 h2 h3 h4
    · obtain ⟨p, hp, hpo⟩ := ihl hl s k
      exact ⟨(AVL.updHeight (Node.node k0 v0 p.1 r h), p.2), by simp [hp],
        HeightOk.updHeight h hpo hr⟩
    · obtain ⟨p, hp, hpo⟩ := ihr hr s k
      exact ⟨(AVL.updHeight (Node.node k0 v0 l p.1 h), p.2), by simp [hp],
        HeightOk.updHeight h hl hpo⟩
    · obtain ⟨n, hn, hno⟩ := hr.balance_any
      exact ⟨(n, s - 1), by simp [hn], hno⟩
    · obtain ⟨n, hn, hno⟩ := hl.balance_any
      exact ⟨(n, s - 1), by simp [hn], hno⟩
    · obtain ⟨mk, mv, ml, mr, mh, hm⟩ := maximumNode_node k0 v0 l r h
      rw [hm]
      obtain ⟨p, hp, hpo⟩ := ihl hl (s - 1) mk
      exact ⟨(AVL.updHeight (Node.node mk mv p.1 r h), p.2), by simp [hp],
        HeightOk.updHeight h hpo hr⟩

theorem delete_absent {t : Node} (ht : HeightOk t) (s : Int) {k : Int}
    (hk : k ∉ inOrderKeys t) : delete s t k = some (t, s) := by
  induction t with
  | nil => rfl
  | node k0 v0 l r h ihl ihr =>
    simp only [inOrderKeys, List.mem_append, List.mem_cons, not_or] at hk
    obtain ⟨hkl, hk0, hkr⟩ := hk
    have hup := updHeight_of_HeightOk ht
    obtain ⟨hl, hr, -⟩ := ht
    simp only [delete]
    rcases lt_or_gt_of_ne hk0 with hlt | hgt
    · rw [if_pos (comparator_eq_neg_one.mpr hlt)]
      simp [ihl hl hkl, hup]
    · have h1 : ¬ comparator k k0 = -1 := fun hc => by
        have := comparator_eq_neg_one.mp hc
        omega
      rw [if_neg h1, if_pos (comparator_eq_one.mpr hgt)]
      simp [ihr hr hkr, hup]

/-! ## Sequences of operations -/

theorem run_append (ops1 ops2 : List Op) (t : Tree) :
    run (ops1 ++ ops2) t = (run ops1 t).bind (run ops2) := by
  induction ops1 generalizing t with
  | nil => rfl
  | cons op ops ih =>
    simp only [List.cons_append, run]
    cases t.apply op with
    | none => rfl
    | some t1 => simpa using ih t1

theorem HeightOk.apply {t : Tree} (ht : HeightOk t.Root) (op : Op) :
    ∃ t1, t.apply op = some t1 ∧ HeightOk t1.Root := by
  cases op with
  | put k v =>
    obtain ⟨p, hp, hpo⟩ := ht.insert t.size k v
    exact ⟨⟨p.1, p.2⟩, by simp [Tree.apply, Tree.Put, hp], hpo⟩
  | remove k =>
    obtain ⟨p, hp, hpo⟩ := ht.delete t.size k
    exact ⟨⟨p.1, p.2⟩, by simp [Tree.apply, Tree.Remove, hp], hpo⟩

theorem HeightOk.run {t : Tree} (ht : HeightOk t.Root) (ops : List Op) :
    ∃ t1, AVL.run ops t = some t1 ∧ HeightOk t1.Root := by
  induction ops generalizing t with
  | nil => exact ⟨t, rfl, ht⟩
  | cons op ops ih =>
    obtain ⟨t1, h1, ho1⟩ := ht.apply op
    obtain ⟨t2, h2, ho2⟩ := ih ho1
    exact ⟨t2, by simp [AVL.run, h1, h2], ho2⟩

theorem HeightOk.of_run {ops : List Op} {t : Tree} (h : AVL.run ops New = some t) :
    HeightOk t.Root := by
  obtain ⟨t1, h1, ho1⟩ := HeightOk.run (t := New) trivial ops
  rw [h] at h1
  cases h1
  exact ho1

theorem run_puts {t : Tree} (ht : HeightOk t.Root) (hs : KeySorted (inOrder t.Root))
    (kvs : List (Int × Int)) :
    ∃ t1, run (puts kvs) t = some t1 ∧ HeightOk t1.Root ∧ KeySorted (inOrder t1.Root) ∧
      inOrder t1.Root = insAll kvs (inOrder t.Root) ∧
      t1.size - t.size = (countNodes t1.Root : Int) - (countNodes t.Root : Int) := by
  induction kvs generalizing t with
  | nil => exact ⟨t, rfl, ht, hs, rfl, by simp⟩
  | cons kv kvs ih =>
    obtain ⟨p, hp, hpo⟩ := ht.insert t.size kv.1 kv.2
    have hin := inOrder_insert hs hp
    have hsz := size_insert hp
    have hs1 : KeySorted (inOrder p.1) := hin ▸ hs.insList kv.1 kv.2
    obtain ⟨t2, h2, ho2, hs2, hin2, hsz2⟩ := ih (t := ⟨p.1, p.2⟩) hpo hs1
    refine ⟨t2, ?_, ho2, hs2, ?_, ?_⟩
    · simp [puts, run, Tree.apply, Tree.Put, hp] at h2 ⊢
      exact h2
    · rw [hin2, hin]; rfl
    · simp only at hsz2
      omega

theorem sorted_inOrderKeys_iff (t : Node) :
    (inOrderKeys t).Sorted (· < ·) ↔ KeySorted (inOrder t) := by
  rw [inOrderKeys_eq_map]
  exact List.pairwise_map

theorem IsBST_of_sorted {t : Node} (h : (inOrderKeys t).Sorted (· < ·)) : IsBST t := by
  induction t with
  | nil => trivial
  | node k v l r h0 ihl ihr =>
    unfold List.Sorted at h ihl ihr
    simp only [inOrderKeys] at h
    rw [List.pairwise_append, List.pairwise_cons] at h
    obtain ⟨hl, ⟨hkr, hr⟩, hlr⟩ := h
    exact ⟨ihl hl, ihr hr, fun x hx => hlr x hx k (List.mem_cons_self _ _), hkr⟩

/-! ## The reference association -/

theorem length_insList_indep (k v w : Int) (xs : List (Int × Int)) :
    (insList k v xs).length = (insList k w xs).length := by
  induction xs with
  | nil => rfl
  | cons y ys ih =>
    obtain ⟨y1, y2⟩ := y
    simp only [insList]
    split_ifs <;> simp [ih]

theorem insList_insList (k v w : Int) (xs : List (Int × Int)) :
    insList k w (insList k v xs) = insList k w xs := by
  induction xs with
  | nil => simp [insList]
  | cons y ys ih =>
    obtain ⟨y1, y2⟩ := y
    simp only [insList]
    split_ifs with h1 h2
    · simp [insList]
    · simp [insList, h1, h2, ih]
    · simp [insList]

theorem filter_insList {xs : List (Int × Int)} (h : KeySorted xs) (k v : Int) :
    (insList k v xs).filter (fun kv => kv.1 = k) = [(k, v)] := by
  induction xs with
  | nil => simp [insList]
  | cons y ys ih =>
    obtain ⟨y1, y2⟩ := y
    unfold KeySorted at h ih
    rw [List.pairwise_cons] at h
    simp only [insList]
    split_ifs with h1 h2
    · have hy : ¬ y1 = k := by omega
      have hys : ys.filter (fun kv => decide (kv.1 = k)) = [] := by
        rw [List.filter_eq_nil_iff]
        intro a ha
        have := h.1 a ha
        simp only [decide_eq_true_eq]
        omega
      simp [List.filter_cons, hy, hys]
    · have hy : ¬ y1 = k := by omega
      simp [List.filter_cons, hy, ih h.2]
    · have hys : ys.filter (fun kv => decide (kv.1 = k)) = [] := by
        rw [List.filter_eq_nil_iff]
        intro a ha
        have := h.1 a ha
        simp only [decide_eq_true_eq]
        omega
      simp [List.filter_cons, hys]

theorem mem_insList_iff {xs : List (Int × Int)} (h : KeySorted xs) (k v : Int)
    (x : Int × Int) : x ∈ insList k v xs ↔ x = (k, v) ∨ (x ∈ xs ∧ x.1 ≠ k) := by
  induction xs with
  | nil => simp [insList]
  | cons y ys ih =>
    obtain ⟨y1, y2⟩ := y
    unfold KeySorted at h ih
    rw [List.pairwise_cons] at h
    simp only [insList]
    split_ifs with h1 h2
    · constructor
      · intro hx
        rcases List.mem_cons.mp hx with hx | hx
        · exact Or.inl hx
        · refine Or.inr ⟨hx, ?_⟩
          rcases List.mem_cons.mp hx with hx | hx
          · rw [hx]; simp only; omega
          · have := h.1 x hx
            simp only at this
            omega
      · rintro (hx | ⟨hx, -⟩)
        · rw [hx]; exact List.mem_cons_self _ _
        · exact List.mem_cons_of_mem _ hx
    · rw [List.mem_cons, ih h.2, List.mem_cons]
      constructor
      · rintro (hx | hx | ⟨hx, hne⟩)
        · refine Or.inr ⟨Or.inl hx, ?_⟩
          rw [hx]; simp only; omega
        · exact Or.inl hx
        · exact Or.inr ⟨Or.inr hx, hne⟩
      · rintro (hx | ⟨hx | hx, hne⟩)
        · exact Or.inr (Or.inl hx)
        · exact Or.inl hx
        · exact Or.inr (Or.inr ⟨hx, hne⟩)
    · have hk : y1 = k := by omega
      subst hk
      rw [List.mem_cons, List.mem_cons]
      constructor
      · rintro (hx | hx)
        · exact Or.inl hx
        · refine Or.inr ⟨Or.inr hx, ?_⟩
          have := h.1 x hx
          simp only at this
          omega
      · rintro (hx | ⟨hx | hx, hne⟩)
        · exact Or.inl hx
        · rw [hx] at hne; exact absurd rfl hne
        · exact Or.inr hx

theorem insAll_append (kvs : List (Int × Int)) (kv : Int × Int) (xs : List (Int × Int)) :
    insAll (kvs ++ [kv]) xs = insList kv.1 kv.2 (insAll kvs xs) := by
  simp [insAll, List.foldl_append]

theorem KeySorted.insAll {xs : List (Int × Int)} (h : KeySorted xs)
    (kvs : List (Int × Int)) : KeySorted (insAll kvs xs) := by
  induction kvs generalizing xs with
  | nil => exact h
  | cons kv kvs ih => exact ih (h.insList kv.1 kv.2)

theorem lastValue_append (kvs : List (Int × Int)) (k v k1 : Int) :
    lastValue (kvs ++ [(k, v)]) k1 = if k = k1 then v else lastValue kvs k1 := by
  unfold lastValue
  rw [List.reverse_append, List.reverse_singleton, List.singleton_append, List.find?_cons]
  by_cases hk : k = k1
  · simp [hk]
  · simp [hk]

theorem mem_insAll_iff (kvs : List (Int × Int)) (x : Int × Int) :
    x ∈ insAll kvs [] ↔ x.1 ∈ kvs.map Prod.fst ∧ x.2 = lastValue kvs x.1 := by
  induction kvs using List.reverseRecOn generalizing x with
  | nil => simp [insAll]
  | append_singleton kvs kv ih =>
    obtain ⟨k, v⟩ := kv
    obtain ⟨x1, x2⟩ := x
    rw [insAll_append, mem_insList_iff (KeySorted.insAll List.Pairwise.nil kvs), ih,
      lastValue_append]
    simp only [Prod.mk.injEq, List.map_append, List.map_cons, List.map_nil, List.mem_append,
      List.mem_singleton, ne_eq]
    by_cases hk : k = x1
    · subst hk
      simp
    · have hk1 : ¬ x1 = k := fun h => hk h.symm
      simp [hk, hk1]

theorem KeySorted.eq_of_mem_iff {xs ys : List (Int × Int)} (hx : KeySorted xs)
    (hy : KeySorted ys) (h : ∀ a, a ∈ xs ↔ a ∈ ys) : xs = ys := by
  haveI : IsAntisymm (Int × Int) (fun a b => a.1 < b.1) :=
    ⟨fun a b h1 h2 => absurd (lt_trans h1 h2) (lt_irrefl _)⟩
  have nd : ∀ {zs : List (Int × Int)}, KeySorted zs → zs.Nodup := fun hz =>
    List.Pairwise.imp (fun {a b} hab heq => by rw [heq] at hab; exact lt_irrefl _ hab) hz
  exact List.eq_of_perm_of_sorted ((List.perm_ext_iff_of_nodup (nd hx) (nd hy)).mpr h) hx hy

theorem refAssoc_keySorted (kvs : List (Int × Int)) : KeySorted (refAssoc kvs) := by
  unfold KeySorted refAssoc
  rw [List.pairwise_map]
  exact (List.sorted_insertionSort (· ≤ ·) _).lt_of_le
    ((List.perm_insertionSort (· ≤ ·) _).nodup_iff.mpr (List.nodup_dedup _))

theorem mem_refAssoc_iff (kvs : List (Int × Int)) (x : Int × Int) :
    x ∈ refAssoc kvs ↔ x.1 ∈ kvs.map Prod.fst ∧ x.2 = lastValue kvs x.1 := by
  obtain ⟨x1, x2⟩ := x
  unfold refAssoc
  simp only [List.mem_map, List.mem_insertionSort, List.mem_dedup, Prod.mk.injEq]
  constructor
  · rintro ⟨k, ⟨a, ha, hak⟩, hk, hv⟩
    subst hk
    exact ⟨⟨a, ha, hak⟩, hv.symm⟩
  · rintro ⟨hk, hv⟩
    exact ⟨x1, hk, rfl, hv.symm⟩

theorem insAll_eq_refAssoc (kvs : List (Int × Int)) : insAll kvs [] = refAssoc kvs :=
  KeySorted.eq_of_mem_iff (KeySorted.insAll List.Pairwise.nil kvs) (refAssoc_keySorted kvs)
    fun a => by rw [mem_insAll_iff, mem_refAssoc_iff]

theorem length_refAssoc (kvs : List (Int × Int)) :
    (refAssoc kvs).length = (kvs.map Prod.fst).dedup.length := by
  simp [refAssoc, List.length_insertionSort]

/-! ## The claims -/

/-- C1: for every sequence of Put operations applied to the empty tree, every
Put returns, and the key sequence of the in-order traversal of the resulting
tree is strictly increasing; hence the binary-search-tree property holds at
every node and no key occurs twice. -/
theorem puts_inOrderKeys_strictly_increasing (kvs : List (Int × Int)) :
    ∃ t, run (puts kvs) New = some t ∧ (inOrderKeys t.Root).Sorted (· < ·) ∧
      IsBST t.Root ∧ (inOrderKeys t.Root).Nodup := by
  obtain ⟨t, ht, -, hs, -, -⟩ := run_puts (t := New) trivial List.Pairwise.nil kvs
  have hsorted := (sorted_inOrderKeys_iff t.Root).mpr hs
  exact ⟨t, ht, hsorted, IsBST_of_sorted hsorted, hsorted.nodup⟩

/-- C7: for every tree reachable from the empty tree by a sequence of Put and
Remove operations and every key k that is the key of no node of that tree,
Remove(k) returns and leaves the tree (shape, keys, values, cached heights)
and Size() unchanged. -/
theorem remove_absent_is_noop (ops : List Op) (t : Tree) (k : Int)
    (hreach : run ops New = some t) (hk : k ∉ inOrderKeys t.Root) :
    t.Remove k = some t := by
  unfold Tree.Remove
  rw [delete_absent (HeightOk.of_run hreach) t.size hk]
  rfl

/-- C7, at the tree reached by Put(2), Put(1), Put(3), Remove(2) and the
absent key 5. -/
theorem remove_absent_is_noop_witness :
    run [Op.put 2 20, Op.put 1 10, Op.put 3 30, Op.remove 2] New =
        some ⟨Node.node 3 30 (Node.node 1 10 Node.nil Node.nil 0)
          (Node.node 3 30 Node.nil Node.nil 0) 1, 2⟩ ∧
      Tree.Remove ⟨Node.node 3 30 (Node.node 1 10 Node.nil Node.nil 0)
          (Node.node 3 30 Node.nil Node.nil 0) 1, 2⟩ 5 =
        some ⟨Node.node 3 30 (Node.node 1 10 Node.nil Node.nil 0)
          (Node.node 3 30 Node.nil Node.nil 0) 1, 2⟩ :=
  ⟨by decide,
    remove_absent_is_noop [Op.put 2 20, Op.put 1 10, Op.put 3 30, Op.remove 2] _ 5
      (by decide) (by decide)⟩

/-- C2: after Put(2), Put(1), Put(3), Put(4), Remove(1) the root has an empty
left subtree (height -1) and a right subtree of height 1: `delete` recomputes
the height of the ancestors of the removed node but does not rebalance them, so
the tree is not height-balanced. -/
theorem remove_breaks_balance :
    run (puts [(2, 20), (1, 10), (3, 30), (4, 40)] ++ [Op.remove 1]) New =
        some ⟨Node.node 2 20 Node.nil
          (Node.node 3 30 Node.nil (Node.node 4 40 Node.nil Node.nil 0) 1) 2, 3⟩ ∧
      ¬ Balanced (Node.node 2 20 Node.nil
          (Node.node 3 30 Node.nil (Node.node 4 40 Node.nil Node.nil 0) 1) 2) := by
  refine ⟨by decide, ?_⟩
  intro h
  have h1 := h.2.2
  simp [height] at h1

/-- C3: after Put(2), Put(1), Put(3), Remove(2) the tree still has three nodes
while Size() is 2: removing a key stored at a node with two children decrements
`size` without unlinking any node. -/
theorem size_differs_from_node_count :
    run [Op.put 2 20, Op.put 1 10, Op.put 3 30, Op.remove 2] New =
        some ⟨Node.node 3 30 (Node.node 1 10 Node.nil Node.nil 0)
          (Node.node 3 30 Node.nil Node.nil 0) 1, 2⟩ ∧
      Tree.Size ⟨Node.node 3 30 (Node.node 1 10 Node.nil Node.nil 0)
          (Node.node 3 30 Node.nil Node.nil 0) 1, 2⟩ = 2 ∧
      countNodes (Node.node 3 30 (Node.node 1 10 Node.nil Node.nil 0)
          (Node.node 3 30 Node.nil Node.nil 0) 1) = 3 := by
  decide

/-- C4: inserting 5, 3, 8, 1, 4, 7, 9 and then removing 5 gives Size() = 6 but
a tree of seven nodes whose in-order key sequence is 1 3 4 9 7 8 9: the root
key 5 is overwritten with 9, the maximum of the whole subtree, and the node
holding 9 stays in place, so the tree is not ordered. -/
theorem scenario_remove_five :
    ∃ t, run (puts [(5, 50), (3, 30), (8, 80), (1, 10), (4, 40), (7, 70), (9, 90)] ++
        [Op.remove 5]) New = some t ∧
      t.Size = 6 ∧ countNodes t.Root = 7 ∧ inOrderKeys t.Root = [1, 3, 4, 9, 7, 8, 9] ∧
      ¬ (inOrderKeys t.Root).Sorted (· < ·) ∧ ¬ IsBST t.Root := by
  refine ⟨⟨Node.node 9 90
      (Node.node 3 30 (Node.node 1 10 Node.nil Node.nil 0) (Node.node 4 40 Node.nil Node.nil 0) 1)
      (Node.node 8 80 (Node.node 7 70 Node.nil Node.nil 0) (Node.node 9 90 Node.nil Node.nil 0) 1)
      2, 6⟩, by decide, by decide, by decide, by decide, by decide, ?_⟩
  intro h
  have h1 := h.2.2.2 7 (by decide)
  omega

/-- C5: on the tree built by Put(2, 20), Put(1, 10), Put(3, 30), whose root 2
has two children, Remove(2) overwrites the root with (3, 30), the maximum of
the right subtree, not with its in-order predecessor (1, 10), and deletes
nothing from the left subtree: the in-order sequence becomes
(1, 10), (3, 30), (3, 30) instead of (1, 10), (3, 30). -/
theorem remove_two_children_keeps_predecessor :
    run (puts [(2, 20), (1, 10), (3, 30)]) New =
        some ⟨Node.node 2 20 (Node.node 1 10 Node.nil Node.nil 0)
          (Node.node 3 30 Node.nil Node.nil 0) 1, 3⟩ ∧
      Tree.Remove ⟨Node.node 2 20 (Node.node 1 10 Node.nil Node.nil 0)
          (Node.node 3 30 Node.nil Node.nil 0) 1, 3⟩ 2 =
        some ⟨Node.node 3 30 (Node.node 1 10 Node.nil Node.nil 0)
          (Node.node 3 30 Node.nil Node.nil 0) 1, 2⟩ ∧
      inOrder (Node.node 3 30 (Node.node 1 10 Node.nil Node.nil 0)
          (Node.node 3 30 Node.nil Node.nil 0) 1) = [(1, 10), (3, 30), (3, 30)] := by
  decide

/-- C6: after Put(2), Put(1), Put(3), Remove(2), Remove(3), Remove(3) the
reference set has the single element 1 while Size() is 0: each Remove(3) finds
key 3 at the two-children root, decrements `size` and leaves the tree as it
was. -/
theorem size_differs_from_reference_set :
    ∃ t, run [Op.put 2 20, Op.put 1 10, Op.put 3 30, Op.remove 2, Op.remove 3,
        Op.remove 3] New = some t ∧
      t.Size = 0 ∧
      (refSet [Op.put 2 20, Op.put 1 10, Op.put 3 30, Op.remove 2, Op.remove 3,
        Op.remove 3]).card = 1 := by
  refine ⟨⟨Node.node 3 30 (Node.node 1 10 Node.nil Node.nil 0)
      (Node.node 3 30 Node.nil Node.nil 0) 1, 0⟩, by decide, by decide, by decide⟩

/-- C8: after Put(2), Put(1), Put(3), Remove(2) the tree has key 3 at its root
and at the right child; Remove(3) leaves it so, and key 3 still appears in the
pre-order, in-order, post-order and level-order key sequences. -/
theorem removed_key_still_traversed :
    ∃ t, run [Op.put 2 20, Op.put 1 10, Op.put 3 30, Op.remove 2, Op.remove 3] New =
        some t ∧
      preOrderKeys t.Root = [3, 1, 3] ∧ inOrderKeys t.Root = [1, 3, 3] ∧
      postOrderKeys t.Root = [1, 3, 3] ∧ levelOrderKeys t.Root = [3, 1, 3] := by
  refine ⟨⟨Node.node 3 30 (Node.node 1 10 Node.nil Node.nil 0)
      (Node.node 3 30 Node.nil Node.nil 0) 1, 1⟩, by decide, by decide, by decide, by decide,
    by decide⟩

/-- C9: for every tree built from the empty tree by a sequence of Put
operations and all integers k, v1, v2: Put(k, v1) and then Put(k, v2) both
return, Size() after the second Put is what it was after the first, and the
nodes with key k, listed in in-order, are exactly one node, with value v2. -/
theorem put_same_key_twice (kvs : List (Int × Int)) (k v1 v2 : Int) :
    ∃ t0 t1 t2, run (puts kvs) New = some t0 ∧ t0.Put k v1 = some t1 ∧
      t1.Put k v2 = some t2 ∧ t2.Size = t1.Size ∧
      (inOrder t2.Root).filter (fun kv => kv.1 = k) = [(k, v2)] := by
  obtain ⟨t0, h0, ho0, hs0, -, -⟩ := run_puts (t := New) trivial List.Pairwise.nil kvs
  obtain ⟨p1, hp1, hpo1⟩ := ho0.insert t0.size k v1
  have hin1 := inOrder_insert hs0 hp1
  have hs1 : KeySorted (inOrder p1.1) := hin1 ▸ hs0.insList k v1
  obtain ⟨p2, hp2, -⟩ := hpo1.insert p1.2 k v2
  have hin2 := inOrder_insert hs1 hp2
  have hsz := size_insert hp2
  refine ⟨t0, ⟨p1.1, p1.2⟩, ⟨p2.1, p2.2⟩, h0, by simp [Tree.Put, hp1], by simp [Tree.Put, hp2],
    ?_, ?_⟩
  · have hlen : (inOrder p2.1).length = (inOrder p1.1).length := by
      rw [hin2, hin1, insList_insList, length_insList_indep k v2 v1]
    simp only [countNodes_eq_length, hlen] at hsz
    simp only [Tree.Size]
    omega
  · simp only [hin2]
    exact filter_insList hs1 k v2

/-- C10: for every sequence of Put operations applied to the empty tree, every
Put returns, the in-order sequence of (key, value) pairs of the resulting tree
is the reference association (the distinct keys inserted, in increasing order,
each with the value of its last Put), and Size() is the number of distinct
keys inserted. -/
theorem puts_refine_reference_association (kvs : List (Int × Int)) :
    ∃ t, run (puts kvs) New = some t ∧ inOrder t.Root = refAssoc kvs ∧
      t.Size = ((kvs.map Prod.fst).dedup.length : Int) := by
  obtain ⟨t, ht, -, -, hin, hsz⟩ := run_puts (t := New) trivial List.Pairwise.nil kvs
  have hin1 : inOrder t.Root = refAssoc kvs := by
    rw [hin]
    exact insAll_eq_refAssoc kvs
  refine ⟨t, ht, hin1, ?_⟩
  have hc : countNodes t.Root = (kvs.map Prod.fst).dedup.length := by
    rw [countNodes_eq_length, hin1, length_refAssoc]
  simp only [New, countNodes, Nat.cast_zero, sub_zero] at hsz
  simp only [Tree.Size]
  rw [← hc]
  omega

/-! ## Cached heights against true heights -/

theorem height_nil : height Node.nil = -1 := rfl

theorem height_node (k v : Int) (l r : Node) (h : Int) :
    height (Node.node k v l r h) = 1 + max (height l) (height r) := rfl

theorem HeightOk.getHeight_eq {t : Node} (ht : HeightOk t) : getHeight t = height t := by
  induction t with
  | nil => rfl
  | node k v l r h ihl ihr =>
    obtain ⟨hl, hr, hh⟩ := ht
    rw [getHeight_node, height_node, ← ihl hl, ← ihr hr, hh]

theorem HeightOk.cachedOk {t : Node} (ht : HeightOk t) : CachedOk t := by
  induction t with
  | nil => trivial
  | node k v l r h ihl ihr =>
    obtain ⟨hl, hr, hh⟩ := ht
    exact ⟨ihl hl, ihr hr, by rw [← hl.getHeight_eq, ← hr.getHeight_eq, hh]⟩

theorem CachedOk.getHeight_eq_height {t : Node} (ht : CachedOk t) : getHeight t = height t := by
  cases t with
  | nil => rfl
  | node k v l r h => exact ht.2.2

theorem CachedOk.heightOk {t : Node} (ht : CachedOk t) : HeightOk t := by
  induction t with
  | nil => trivial
  | node k v l r h ihl ihr =>
    obtain ⟨hl, hr, hh⟩ := ht
    exact ⟨ihl hl, ihr hr, by rw [hl.getHeight_eq_height, hr.getHeight_eq_height, hh]⟩

theorem Avl.heightOk_of_avl {t : Node} (ht : Avl t) : HeightOk t := by
  induction t with
  | nil => trivial
  | node k v l r h ihl ihr => exact ⟨ihl ht.1, ihr ht.2.1, ht.2.2.1⟩

theorem Avl.balanced {t : Node} (ht : Avl t) : Balanced t := by
  induction t with
  | nil => trivial
  | node k v l r h ihl ihr =>
    obtain ⟨hl, hr, -, h1, h2⟩ := ht
    refine ⟨ihl hl, ihr hr, ?_⟩
    rw [← hl.heightOk_of_avl.getHeight_eq, ← hr.heightOk_of_avl.getHeight_eq, abs_le]
    constructor <;> omega

theorem Avl.of_cachedOk_balanced {t : Node} (hc : CachedOk t) (hb : Balanced t) : Avl t := by
  induction t with
  | nil => trivial
  | node k v l r h ihl ihr =>
    obtain ⟨hl, hr, hh⟩ := hc
    obtain ⟨bl, br, hd⟩ := hb
    rw [abs_le] at hd
    refine ⟨ihl hl bl, ihr hr br, ?_, ?_, ?_⟩
    · rw [hl.getHeight_eq_height, hr.getHeight_eq_height, hh]
    · rw [hl.getHeight_eq_height, hr.getHeight_eq_height]; omega
    · rw [hl.getHeight_eq_height, hr.getHeight_eq_height]; omega

/-- C12: for every sequence of Put and Remove operations applied to the empty
tree, every operation returns and in the resulting tree the cached Height of
every node equals 1 + max(height(left), height(right)) computed on the actual
subtrees, the empty subtree counting -1. -/
theorem cached_heights_are_true_heights (ops : List Op) :
    ∃ t, run ops New = some t ∧ CachedOk t.Root := by
  obtain ⟨t, ht, ho⟩ := HeightOk.run (t := New) trivial ops
  exact ⟨t, ht, ho.cachedOk⟩

/-! ## The balancer restores the AVL invariant -/

theorem Avl.neg_one_le_getHeight {t : Node} (ht : Avl t) : -1 ≤ getHeight t :=
  ht.heightOk_of_avl.neg_one_le

theorem Avl.balance_avl {k v : Int} {l r : Node} (h : Int) (hl : Avl l) (hr : Avl r)
    (hd1 : getHeight l ≤ getHeight r + 2) (hd2 : getHeight r ≤ getHeight l + 2) :
    ∃ t1, AVL.balance (Node.node k v l r h) = some t1 ∧ Avl t1 ∧
      (getHeight t1 = 1 + max (getHeight l) (getHeight r) ∨
        getHeight t1 = max (getHeight l) (getHeight r)) ∧
      (getHeight l ≤ getHeight r + 1 → getHeight r ≤ getHeight l + 1 →
        getHeight t1 = 1 + max (getHeight l) (getHeight r)) := by
  have hlb := hl.neg_one_le_getHeight
  have hrb := hr.neg_one_le_getHeight
  simp only [AVL.balance, updHeight_node, getBalanceFactor_node]
  split_ifs with h1 h2 h3 h4
  · cases l with
    | nil => simp only [getHeight_nil] at h1; omega
    | node lk lv ll lr lh =>
      obtain ⟨hll, hlr, hlh, hl1, hl2⟩ := hl
      have := hll.neg_one_le_getHeight
      have := hlr.neg_one_le_getHeight
      simp only [getBalanceFactor_node] at h2
      simp only [getHeight_node] at h1 hd1 hd2 hlb ⊢
      refine ⟨_, rfl, ?_, ?_, ?_⟩
      · simp only [updHeight_node]
        refine ⟨hll, ⟨hlr, hr, rfl, ?_, ?_⟩, rfl, ?_, ?_⟩ <;>
          (try simp only [getHeight_node]) <;> omega
      · simp only [updHeight_node, getHeight_node]; omega
      · intro _ _; omega
  · cases l with
    | nil => simp only [getHeight_nil] at h1; omega
    | node lk lv ll lr lh =>
      obtain ⟨hll, hlr, hlh, hl1, hl2⟩ := hl
      have := hll.neg_one_le_getHeight
      simp only [getBalanceFactor_node] at h2
      cases lr with
      | nil => simp only [getHeight_nil] at h2; omega
      | node ak av al ar ah =>
        obtain ⟨hal, har, hah, ha1, ha2⟩ := hlr
        have := hal.neg_one_le_getHeight
        have := har.neg_one_le_getHeight
        simp only [getHeight_node] at h1 h2 hd1 hd2 hlb hlh hl1 hl2 ⊢
        simp only [AVL.rotateLeft, AVL.rotateRight, updHeight_node, Option.some_bind]
        refine ⟨_, rfl, ?_, ?_, ?_⟩
        · refine ⟨⟨hll, hal, rfl, ?_, ?_⟩, ⟨har, hr, rfl, ?_, ?_⟩, rfl, ?_, ?_⟩ <;>
            (try simp only [getHeight_node]) <;> omega
        · simp only [getHeight_node]; omega
        · intro _ _; omega
  · cases r with
    | nil => simp only [getHeight_nil] at h3; omega
    | node rk rv rl rr rh =>
      obtain ⟨hrl, hrr, hrh, hr1, hr2⟩ := hr
      have := hrl.neg_one_le_getHeight
      have := hrr.neg_one_le_getHeight
      simp only [getBalanceFactor_node] at h4
      simp only [getHeight_node] at h1 h3 hd1 hd2 hrb ⊢
      refine ⟨_, rfl, ?_, ?_, ?_⟩
      · simp only [updHeight_node]
        refine ⟨⟨hl, hrl, rfl, ?_, ?_⟩, hrr, rfl, ?_, ?_⟩ <;>
          (try simp only [getHeight_node]) <;> omega
      · simp only [updHeight_node, getHeight_node]; omega
      · intro _ _; omega
  · cases r with
    | nil => simp only [getHeight_nil] at h3; omega
    | node rk rv rl rr rh =>
      obtain ⟨hrl, hrr, hrh, hr1, hr2⟩ := hr
      have := hrr.neg_one_le_getHeight
      simp only [getBalanceFactor_node] at h4
      cases rl with
      | nil => simp only [getHeight_nil] at h4; omega
      | node ak av al ar ah =>
        obtain ⟨hal, har, hah, ha1, ha2⟩ := hrl
        have := hal.neg_one_le_getHeight
        have := har.neg_one_le_getHeight
        simp only [getHeight_node] at h1 h3 h4 hd1 hd2 hrb hrh hr1 hr2 ⊢
        simp only [AVL.rotateLeft, AVL.rotateRight, updHeight_node, Option.some_bind]
        refine ⟨_, rfl, ?_, ?_, ?_⟩
        · refine ⟨⟨hl, hal, rfl, ?_, ?_⟩, ⟨har, hrr, rfl, ?_, ?_⟩, rfl, ?_, ?_⟩ <;>
            (try simp only [getHeight_node]) <;> omega
        · simp only [getHeight_node]; omega
        · intro _ _; omega
  · refine ⟨_, rfl, ⟨hl, hr, rfl, by omega, by omega⟩, Or.inl rfl, fun _ _ => rfl⟩

theorem Avl.insert_avl {t : Node} (ht : Avl t) (s k v : Int) :
    ∃ p, insert s t k v = some p ∧ Avl p.1 ∧
      (getHeight p.1 = getHeight t ∨ getHeight p.1 = getHeight t + 1) := by
  induction t with
  | nil =>
    exact ⟨_, rfl, ⟨trivial, trivial, rfl, by decide, by decide⟩, Or.inr rfl⟩
  | node k0 v0 l r h ihl ihr =>
    obtain ⟨hl, hr, hh, h1, h2⟩ := ht
    simp only [AVL.insert, getHeight_node]
    split_ifs with hc1 hc2
    · obtain ⟨p, hp, hpa, hph⟩ := ihl hl
      obtain ⟨n, hn, hna, hnh, hne⟩ :=
        Avl.balance_avl (k := k0) (v := v0) h hpa hr (by omega) (by omega)
      refine ⟨(n, p.2), by simp [hp, hn], hna, ?_⟩
      simp only
      by_cases hb : getHeight p.1 ≤ getHeight r + 1
      · have := hne hb (by omega)
        omega
      · omega
    · obtain ⟨p, hp, hpa, hph⟩ := ihr hr
      obtain ⟨n, hn, hna, hnh, hne⟩ :=
        Avl.balance_avl (k := k0) (v := v0) h hl hpa (by omega) (by omega)
      refine ⟨(n, p.2), by simp [hp, hn], hna, ?_⟩
      simp only
      by_cases hb : getHeight p.1 ≤ getHeight l + 1
      · have := hne (by omega) hb
        omega
      · omega
    · obtain ⟨n, hn, hna, -, hne⟩ :=
        Avl.balance_avl (k := k0) (v := v) h hl hr (by omega) (by omega)
      refine ⟨(n, s), by simp [hn], hna, ?_⟩
      have := hne h1 h2
      simp only
      omega

theorem Avl.run_puts_avl {t : Tree} (ht : Avl t.Root) (kvs : List (Int × Int)) :
    ∃ t1, run (puts kvs) t = some t1 ∧ Avl t1.Root := by
  induction kvs generalizing t with
  | nil => exact ⟨t, rfl, ht⟩
  | cons kv kvs ih =>
    obtain ⟨p, hp, hpa, -⟩ := ht.insert_avl t.size kv.1 kv.2
    obtain ⟨t2, h2, ha2⟩ := ih (t := ⟨p.1, p.2⟩) hpa
    refine ⟨t2, ?_, ha2⟩
    simp [puts, run, Tree.apply, Tree.Put, hp] at h2 ⊢
    exact h2

/-! ## Height against node count -/

theorem height_eq_levels (t : Node) : height t = (levels t : Int) - 1 := by
  induction t with
  | nil => rfl
  | node k v l r h ihl ihr =>
    simp only [height, levels, ihl, ihr]
    push_cast
    omega

theorem N_height (t : Node) : N (height t) = minNodesOfLevels (levels t) := by
  simp [N, height_eq_levels]

theorem N_neg_one : N (-1) = 0 := rfl

theorem N_zero : N 0 = 1 := rfl

theorem N_rec (h : Int) (hh : 1 ≤ h) : N h = N (h - 1) + N (h - 2) + 1 := by
  obtain ⟨n, rfl⟩ : ∃ n : Nat, h = (n : Int) + 1 := ⟨(h - 1).toNat, by omega⟩
  have e1 : ((n : Int) + 1 + 1).toNat = n + 2 := by omega
  have e2 : ((n : Int) + 1 - 1 + 1).toNat = n + 1 := by omega
  have e3 : ((n : Int) + 1 - 2 + 1).toNat = n := by omega
  simp only [N, e1, e2, e3, minNodesOfLevels]

theorem minNodesOfLevels_le_succ (n : Nat) :
    minNodesOfLevels n ≤ minNodesOfLevels (n + 1) := by
  cases n with
  | zero => decide
  | succ n => simp only [minNodesOfLevels]; omega

theorem minNodesOfLevels_mono : Monotone minNodesOfLevels :=
  monotone_nat_of_le_succ minNodesOfLevels_le_succ

theorem Balanced.minNodes_le {t : Node} (ht : Balanced t) :
    minNodesOfLevels (levels t) ≤ countNodes t := by
  induction t with
  | nil => simp [levels, minNodesOfLevels]
  | node k v l r h ihl ihr =>
    obtain ⟨bl, br, hd⟩ := ht
    have hl := ihl bl
    have hr := ihr br
    rw [height_eq_levels, height_eq_levels, abs_le] at hd
    simp only [levels, countNodes]
    rcases Nat.lt_or_ge (levels l) (levels r) with hlt | hge
    · obtain ⟨b, hb⟩ : ∃ b, levels r = b + 1 := ⟨levels r - 1, by omega⟩
      have hm : 1 + max (levels l) (levels r) = b + 2 := by omega
      have := minNodesOfLevels_mono (show b ≤ levels l by omega)
      rw [hm]
      rw [hb] at hr
      simp only [minNodesOfLevels]
      omega
    · rcases Nat.eq_zero_or_pos (levels l) with hz | hpos
      · have hm : 1 + max (levels l) (levels r) = 1 := by omega
        rw [hm]
        simp only [minNodesOfLevels]
        omega
      · obtain ⟨a, ha⟩ : ∃ a, levels l = a + 1 := ⟨levels l - 1, by omega⟩
        have hm : 1 + max (levels l) (levels r) = a + 2 := by omega
        have := minNodesOfLevels_mono (show a ≤ levels r by omega)
        rw [hm]
        rw [ha] at hl
        simp only [minNodesOfLevels]
        omega

theorem two_pow_le_minNodes (n : Nat) : 2 ^ (n / 2) ≤ minNodesOfLevels n + 1 := by
  induction n using Nat.strong_induction_on with
  | _ n ih =>
    match n with
    | 0 => decide
    | 1 => decide
    | m + 2 =>
      have h1 := ih m (by omega)
      have h2 := minNodesOfLevels_le_succ m
      have e : (m + 2) / 2 = m / 2 + 1 := by omega
      rw [e, pow_succ]
      simp only [minNodesOfLevels]
      omega

theorem length_insList_le (k v : Int) (xs : List (Int × Int)) :
    (insList k v xs).length ≤ xs.length + 1 := by
  induction xs with
  | nil => simp [insList]
  | cons y ys ih =>
    obtain ⟨y1, y2⟩ := y
    simp only [insList]
    split_ifs <;> simp only [List.length_cons] <;> omega

theorem length_insAll_le (kvs xs : List (Int × Int)) :
    (insAll kvs xs).length ≤ xs.length + kvs.length := by
  induction kvs generalizing xs with
  | nil => simp [insAll]
  | cons kv kvs ih =>
    have h1 := ih (insList kv.1 kv.2 xs)
    have h2 := length_insList_le kv.1 kv.2 xs
    simp only [insAll, List.foldl_cons, List.length_cons] at h1 ⊢
    omega

theorem puts_avl_and_count (kvs : List (Int × Int)) :
    ∃ t, run (puts kvs) New = some t ∧ Avl t.Root ∧ countNodes t.Root ≤ kvs.length := by
  obtain ⟨t, ht, ha⟩ := Avl.run_puts_avl (t := New) trivial kvs
  obtain ⟨t1, ht1, -, -, hin, -⟩ := run_puts (t := New) trivial List.Pairwise.nil kvs
  rw [ht] at ht1
  cases ht1
  refine ⟨t, ht, ha, ?_⟩
  rw [countNodes_eq_length, hin]
  simpa using length_insAll_le kvs []

theorem IsBST.sorted {t : Node} (h : IsBST t) : (inOrderKeys t).Sorted (· < ·) := by
  induction t with
  | nil => exact List.Pairwise.nil
  | node k v l r h0 ihl ihr =>
    obtain ⟨hl, hr, hlk, hkr⟩ := h
    unfold List.Sorted at ihl ihr ⊢
    simp only [inOrderKeys]
    rw [List.pairwise_append, List.pairwise_cons]
    refine ⟨ihl hl, ⟨hkr, ihr hr⟩, ?_⟩
    intro a ha b hb
    rcases List.mem_cons.mp hb with hb | hb
    · rw [hb]; exact hlk a ha
    · exact lt_trans (hlk a ha) (hkr b hb)

theorem IsBST.of_inOrder_eq {t t1 : Node} (h : IsBST t) (he : inOrder t1 = inOrder t) :
    IsBST t1 := by
  apply IsBST_of_sorted
  rw [inOrderKeys_eq_map, he, ← inOrderKeys_eq_map]
  exact h.sorted

/-- C11: for every sequence of Put operations applied to the empty tree, every
Put returns and the height h and node count n of the resulting tree satisfy
n >= N(h), where N(-1) = 0, N(0) = 1, N(h) = N(h-1) + N(h-2) + 1; hence
2^((h+1)/2) <= n + 1, the height is logarithmic in the size.  In particular,
after each of the five Puts of the keys 1, 2, 3, 4, 5 in ascending order (with
any values) the tree is not taller than 3. -/
theorem puts_height_logarithmic :
    (∀ kvs : List (Int × Int), ∃ t, run (puts kvs) New = some t ∧
      N (height t.Root) ≤ countNodes t.Root ∧
      2 ^ ((height t.Root + 1).toNat / 2) ≤ countNodes t.Root + 1) ∧
    (∀ (v1 v2 v3 v4 v5 : Int) (i : Nat), ∃ t,
      run (puts (List.take i [(1, v1), (2, v2), (3, v3), (4, v4), (5, v5)])) New = some t ∧
      height t.Root ≤ 3) := by
  constructor
  · intro kvs
    obtain ⟨t, ht, ha, -⟩ := puts_avl_and_count kvs
    have hb := ha.balanced.minNodes_le
    refine ⟨t, ht, ?_, ?_⟩
    · rw [N_height]; exact hb
    · have e : (height t.Root + 1).toNat = levels t.Root := by
        rw [height_eq_levels]; omega
      rw [e]
      exact le_trans (two_pow_le_minNodes _) (by omega)
  · intro v1 v2 v3 v4 v5 i
    obtain ⟨t, ht, ha, hc⟩ :=
      puts_avl_and_count (List.take i [(1, v1), (2, v2), (3, v3), (4, v4), (5, v5)])
    refine ⟨t, ht, ?_⟩
    have hb := ha.balanced.minNodes_le
    have hlen : (List.take i [((1 : Int), v1), (2, v2), (3, v3), (4, v4), (5, v5)]).length ≤ 5 :=
      (List.take_sublist _ _).length_le
    rw [height_eq_levels]
    by_contra hcon
    have h5 : 5 ≤ levels t.Root := by omega
    have h7 := minNodesOfLevels_mono h5
    have e : minNodesOfLevels 5 = 12 := by decide
    omega

/-- C15: for every non-nil node whose two subtrees are each height-balanced
at every node with correct cached heights and whose subtree heights differ by
at most 2, balance(node) returns a tree that is height-balanced at every node,
has correct cached heights, has the in-order (key, value) sequence of the
input, and whose height is the height of the input or one less. -/
theorem balance_restores_balance (k v : Int) (l r : Node) (h : Int)
    (hbl : Balanced l) (hcl : CachedOk l) (hbr : Balanced r) (hcr : CachedOk r)
    (hd : |height l - height r| ≤ 2) :
    ∃ t1, balance (Node.node k v l r h) = some t1 ∧ Balanced t1 ∧ CachedOk t1 ∧
      inOrder t1 = inOrder (Node.node k v l r h) ∧
      (height t1 = height (Node.node k v l r h) ∨
        height t1 = height (Node.node k v l r h) - 1) := by
  have hl := Avl.of_cachedOk_balanced hcl hbl
  have hr := Avl.of_cachedOk_balanced hcr hbr
  rw [abs_le, ← hcl.getHeight_eq_height, ← hcr.getHeight_eq_height] at hd
  obtain ⟨t1, h1, ha, hh, -⟩ :=
    Avl.balance_avl (k := k) (v := v) h hl hr (by omega) (by omega)
  refine ⟨t1, h1, ha.balanced, ha.heightOk_of_avl.cachedOk, inOrder_balance h1, ?_⟩
  rw [← ha.heightOk_of_avl.getHeight_eq, height_node, ← hcl.getHeight_eq_height, ← hcr.getHeight_eq_height]
  omega

/-- C15, at the left-heavy node 3 whose left child 2 has the left child 1 and
whose right subtree is empty (subtree heights 1 and -1, stale cached height). -/
theorem balance_restores_balance_witness :
    ∃ t1, balance (Node.node 3 30
        (Node.node 2 20 (Node.node 1 10 Node.nil Node.nil 0) Node.nil 1) Node.nil 0) = some t1 ∧
      Balanced t1 ∧ CachedOk t1 ∧
      inOrder t1 = inOrder (Node.node 3 30
        (Node.node 2 20 (Node.node 1 10 Node.nil Node.nil 0) Node.nil 1) Node.nil 0) ∧
      (height t1 = height (Node.node 3 30
          (Node.node 2 20 (Node.node 1 10 Node.nil Node.nil 0) Node.nil 1) Node.nil 0) ∨
        height t1 = height (Node.node 3 30
          (Node.node 2 20 (Node.node 1 10 Node.nil Node.nil 0) Node.nil 1) Node.nil 0) - 1) :=
  balance_restores_balance 3 30
    (Node.node 2 20 (Node.node 1 10 Node.nil Node.nil 0) Node.nil 1) Node.nil 0
    (by simp [Balanced, height]) (by simp [CachedOk, height]) trivial trivial
    (by simp [height])

/-- C16: for every node with a non-nil left child, rotateRight(node) returns a
tree with the in-order (key, value) sequence of the input, so a binary search
tree stays one, and when the subtrees below the two rotated nodes carry correct
cached heights the whole result does, the demoted and the promoted node
included; symmetrically for rotateLeft on a node with a non-nil right child. -/
theorem rotations_keep_inOrder_and_heights :
    (∀ (k v lk lv : Int) (ll lr r : Node) (h lh : Int), ∃ t1,
      rotateRight (Node.node k v (Node.node lk lv ll lr lh) r h) = some t1 ∧
      inOrder t1 = inOrder (Node.node k v (Node.node lk lv ll lr lh) r h) ∧
      (IsBST (Node.node k v (Node.node lk lv ll lr lh) r h) → IsBST t1) ∧
      (CachedOk ll → CachedOk lr → CachedOk r → CachedOk t1)) ∧
    (∀ (k v rk rv : Int) (l rl rr : Node) (h rh : Int), ∃ t1,
      rotateLeft (Node.node k v l (Node.node rk rv rl rr rh) h) = some t1 ∧
      inOrder t1 = inOrder (Node.node k v l (Node.node rk rv rl rr rh) h) ∧
      (IsBST (Node.node k v l (Node.node rk rv rl rr rh) h) → IsBST t1) ∧
      (CachedOk rl → CachedOk rr → CachedOk l → CachedOk t1)) := by
  constructor
  · intro k v lk lv ll lr r h lh
    refine ⟨_, rfl, inOrder_rotateRight rfl, fun hb => hb.of_inOrder_eq (inOrder_rotateRight rfl),
      fun hll hlr hr => HeightOk.cachedOk ?_⟩
    exact HeightOk.updHeight _ hll.heightOk (HeightOk.updHeight _ hlr.heightOk hr.heightOk)
  · intro k v rk rv l rl rr h rh
    refine ⟨_, rfl, inOrder_rotateLeft rfl, fun hb => hb.of_inOrder_eq (inOrder_rotateLeft rfl),
      fun hrl hrr hl => HeightOk.cachedOk ?_⟩
    exact HeightOk.updHeight _ (HeightOk.updHeight _ hl.heightOk hrl.heightOk) hrr.heightOk

/-- C18: every sequence of Put and Remove operations applied to the empty tree
runs to its end without dereferencing a nil node.  In this embedding the
dereferences named by the claim are the only sources of the result `none`:
a rotation of a nil node, rotateRight of a node with a nil left child,
rotateLeft of a node with a nil right child. -/
theorem no_nil_dereference :
    (∀ ops : List Op, ∃ t, run ops New = some t) ∧
    rotateRight Node.nil = none ∧ rotateLeft Node.nil = none ∧
    (∀ (k v : Int) (r : Node) (h : Int), rotateRight (Node.node k v Node.nil r h) = none) ∧
    (∀ (k v : Int) (l : Node) (h : Int), rotateLeft (Node.node k v l Node.nil h) = none) := by
  refine ⟨fun ops => ?_, rfl, rfl, fun _ _ _ _ => rfl, fun _ _ _ _ => rfl⟩
  obtain ⟨t, ht, -⟩ := HeightOk.run (t := New) trivial ops
  exact ⟨t, ht⟩

/-! ## Traversal strings -/

theorem splitSpaces_ne_nil (cs : List Char) : splitSpaces cs ≠ [] := by
  cases cs with
  | nil => simp [splitSpaces]
  | cons c cs =>
    simp only [splitSpaces]
    split_ifs
    · simp
    · split <;> simp

theorem splitSpaces_append_space (a b : List Char) :
    splitSpaces (a ++ ' ' :: b) = splitSpaces a ++ splitSpaces b := by
  induction a with
  | nil => simp [splitSpaces]
  | cons c a ih =>
    simp only [List.cons_append, splitSpaces]
    split_ifs with hc
    · simp [ih]
    · have ih1 : splitSpaces (a.append (' ' :: b)) = splitSpaces a ++ splitSpaces b := ih
      rw [ih1]
      cases hs : splitSpaces a with
      | nil => exact absurd hs (splitSpaces_ne_nil a)
      | cons w ws => simp

theorem splitSpaces_of_no_space {w : List Char} (h : ∀ c ∈ w, c ≠ ' ') :
    splitSpaces w = [w] := by
  induction w with
  | nil => rfl
  | cons c w ih =>
    have hc : c ≠ ' ' := h c (List.mem_cons_self _ _)
    simp only [splitSpaces, hc, if_false, ih fun d hd => h d (List.mem_cons_of_mem _ hd)]

theorem tokenChars_nil : tokenChars [] = [] := by
  simp [tokenChars, splitSpaces]

theorem tokenChars_append_space (a b : List Char) :
    tokenChars (a ++ ' ' :: b) = tokenChars a ++ tokenChars b := by
  simp [tokenChars, splitSpaces_append_space]

theorem tokenChars_word {w : List Char} (h : ∀ c ∈ w, c ≠ ' ') (hne : w ≠ []) :
    tokenChars w = [w] := by
  simp [tokenChars, splitSpaces_of_no_space h, hne]

theorem ite_ne_space {p : Prop} [Decidable p] {a b : Char} (ha : a ≠ ' ') (hb : b ≠ ' ') :
    (if p then a else b) ≠ ' ' := by
  split_ifs <;> assumption

theorem digitChar_ne_space (d : Nat) : Nat.digitChar d ≠ ' ' := by
  unfold Nat.digitChar
  repeat (refine ite_ne_space (by decide) ?_)
  decide

theorem toDigitsCore_no_space (fuel n : Nat) (ds : List Char) (h : ∀ c ∈ ds, c ≠ ' ') :
    ∀ c ∈ Nat.toDigitsCore 10 fuel n ds, c ≠ ' ' := by
  induction fuel generalizing n ds with
  | zero => simpa [Nat.toDigitsCore] using h
  | succ fuel ih =>
    have hd : ∀ c ∈ Nat.digitChar (n % 10) :: ds, c ≠ ' ' := by
      intro c hc
      rcases List.mem_cons.mp hc with hc | hc
      · rw [hc]; exact digitChar_ne_space _
      · exact h c hc
    simp only [Nat.toDigitsCore]
    split_ifs
    · exact hd
    · exact ih _ _ hd

theorem toDigitsCore_ne_nil (fuel n : Nat) (ds : List Char) (h : ds ≠ []) :
    Nat.toDigitsCore 10 fuel n ds ≠ [] := by
  induction fuel generalizing n ds with
  | zero => simpa [Nat.toDigitsCore] using h
  | succ fuel ih =>
    simp only [Nat.toDigitsCore]
    split_ifs
    · simp
    · exact ih _ _ (by simp)

theorem toDigits_no_space (n : Nat) : ∀ c ∈ Nat.toDigits 10 n, c ≠ ' ' :=
  toDigitsCore_no_space _ _ [] (by simp)

theorem toDigits_ne_nil (n : Nat) : Nat.toDigits 10 n ≠ [] := by
  unfold Nat.toDigits
  simp only [Nat.toDigitsCore]
  split_ifs
  · simp
  · exact toDigitsCore_ne_nil _ _ _ (by simp)

theorem Itoa_no_space (k : Int) : ∀ c ∈ (Itoa k).data, c ≠ ' ' := by
  cases k with
  | ofNat m => exact toDigits_no_space m
  | negSucc m =>
    intro c hc
    simp only [Itoa, String.data_append, List.mem_append] at hc
    rcases hc with hc | hc
    · have : c = '-' := by simpa using hc
      rw [this]; decide
    · exact toDigits_no_space _ c hc

theorem Itoa_ne_nil (k : Int) : (Itoa k).data ≠ [] := by
  cases k with
  | ofNat m => exact toDigits_ne_nil m
  | negSucc m => simp [Itoa, String.data_append]

theorem tokenChars_Itoa (k : Int) : tokenChars (Itoa k).data = [(Itoa k).data] :=
  tokenChars_word (Itoa_no_space k) (Itoa_ne_nil k)

theorem tokenChars_Itoa_space (k : Int) (b : List Char) :
    tokenChars ((Itoa k).data ++ ' ' :: b) = (Itoa k).data :: tokenChars b := by
  rw [tokenChars_append_space, tokenChars_Itoa]; rfl

theorem tokenChars_PreOrderTravers (t : Node) :
    tokenChars (PreOrderTravers t).data = (preOrderKeys t).map fun k => (Itoa k).data := by
  induction t with
  | nil => exact tokenChars_nil
  | node k v l r h ihl ihr =>
    have e : (PreOrderTravers (Node.node k v l r h)).data =
        (Itoa k).data ++ ' ' :: ((PreOrderTravers l).data ++
          ' ' :: ((PreOrderTravers r).data ++ ' ' :: [])) := by
      simp [PreOrderTravers, String.data_append]
    rw [e, tokenChars_Itoa_space, tokenChars_append_space, tokenChars_append_space,
      tokenChars_nil, ihl, ihr]
    simp [preOrderKeys]

theorem tokenChars_InOrderTravers (t : Node) :
    tokenChars (InOrderTravers t).data = (inOrderKeys t).map fun k => (Itoa k).data := by
  induction t with
  | nil => exact tokenChars_nil
  | node k v l r h ihl ihr =>
    have e : (InOrderTravers (Node.node k v l r h)).data =
        (InOrderTravers l).data ++ ' ' :: ((Itoa k).data ++
          ' ' :: ((InOrderTravers r).data ++ ' ' :: [])) := by
      simp [InOrderTravers, String.data_append]
    rw [e, tokenChars_append_space, tokenChars_Itoa_space, tokenChars_append_space,
      tokenChars_nil, ihl, ihr]
    simp [inOrderKeys]

theorem tokenChars_PostOrderTravers (t : Node) :
    tokenChars (PostOrderTravers t).data = (postOrderKeys t).map fun k => (Itoa k).data := by
  induction t with
  | nil => exact tokenChars_nil
  | node k v l r h ihl ihr =>
    have e : (PostOrderTravers (Node.node k v l r h)).data =
        (PostOrderTravers l).data ++ ' ' :: ((PostOrderTravers r).data ++
          ' ' :: ((Itoa k).data ++ ' ' :: [])) := by
      simp [PostOrderTravers, String.data_append]
    rw [e, tokenChars_append_space, tokenChars_append_space, tokenChars_Itoa_space,
      tokenChars_nil, ihl, ihr]
    simp [postOrderKeys]

theorem tokens_of_tokenChars {s : String} {ks : List Int}
    (h : tokenChars s.data = ks.map fun k => (Itoa k).data) : tokens s = ks.map Itoa := by
  simp [tokens, h]

theorem levelOrderStrLoop_eq (fuel : Nat) (queue : List Node) (str : String) :
    levelOrderStrLoop fuel queue str =
      str ++ eachFollowedBySpace (levelOrderLoop fuel queue) := by
  induction fuel generalizing queue str with
  | zero => simp [levelOrderStrLoop, levelOrderLoop, eachFollowedBySpace]
  | succ fuel ih =>
    cases queue with
    | nil => simp [levelOrderStrLoop, levelOrderLoop, eachFollowedBySpace]
    | cons x queue =>
      cases x with
      | nil => simp [levelOrderStrLoop, levelOrderLoop, eachFollowedBySpace]
      | node k v l r h =>
        simp only [levelOrderStrLoop, levelOrderLoop, ih, eachFollowedBySpace, List.foldr_cons,
          String.append_assoc]

theorem LevelOrderTravers_eq (t : Node) :
    LevelOrderTravers t = eachFollowedBySpace (levelOrderKeys t) := by
  unfold LevelOrderTravers levelOrderKeys
  split_ifs
  · rfl
  · rw [levelOrderStrLoop_eq]; simp

/-- C13, as stated, fails on the tree with root 2 and leaves 1 and 3: the
recursive traversals put a space after every subtree string, the empty ones
included, so the pre-order, in-order and post-order strings have runs of
several spaces and differ from the single-spaced rendering of their keys. -/
theorem traversal_strings_not_single_spaced :
    PreOrderTravers (Node.node 2 20 (Node.node 1 10 Node.nil Node.nil 0)
        (Node.node 3 30 Node.nil Node.nil 0) 1) = "2 1    3    " ∧
      InOrderTravers (Node.node 2 20 (Node.node 1 10 Node.nil Node.nil 0)
        (Node.node 3 30 Node.nil Node.nil 0) 1) = " 1   2  3   " ∧
      PostOrderTravers (Node.node 2 20 (Node.node 1 10 Node.nil Node.nil 0)
        (Node.node 3 30 Node.nil Node.nil 0) 1) = "  1    3  2 " ∧
      singleSpaced (preOrderKeys (Node.node 2 20 (Node.node 1 10 Node.nil Node.nil 0)
        (Node.node 3 30 Node.nil Node.nil 0) 1)) = "2 1 3" ∧
      singleSpaced (inOrderKeys (Node.node 2 20 (Node.node 1 10 Node.nil Node.nil 0)
        (Node.node 3 30 Node.nil Node.nil 0) 1)) = "1 2 3" ∧
      singleSpaced (postOrderKeys (Node.node 2 20 (Node.node 1 10 Node.nil Node.nil 0)
        (Node.node 3 30 Node.nil Node.nil 0) 1)) = "1 3 2" ∧
      PreOrderTravers (Node.node 2 20 (Node.node 1 10 Node.nil Node.nil 0)
        (Node.node 3 30 Node.nil Node.nil 0) 1) ≠
        singleSpaced (preOrderKeys (Node.node 2 20 (Node.node 1 10 Node.nil Node.nil 0)
          (Node.node 3 30 Node.nil Node.nil 0) 1)) := by
  decide

/-- C13, amended: for every tree, the tokens (maximal runs of characters other
than the space) of the strings returned by PreOrderTravers, InOrderTravers and
PostOrderTravers are the decimal renderings of the visited keys in traversal
order, consecutive keys being separated by one or more spaces; the string
returned by LevelOrderTravers is the decimal renderings of the visited keys in
traversal order, each followed by exactly one space. -/
theorem traversal_strings_render_keys (t : Node) :
    tokens (PreOrderTravers t) = (preOrderKeys t).map Itoa ∧
      tokens (InOrderTravers t) = (inOrderKeys t).map Itoa ∧
      tokens (PostOrderTravers t) = (postOrderKeys t).map Itoa ∧
      LevelOrderTravers t = eachFollowedBySpace (levelOrderKeys t) :=
  ⟨tokens_of_tokenChars (tokenChars_PreOrderTravers t),
    tokens_of_tokenChars (tokenChars_InOrderTravers t),
    tokens_of_tokenChars (tokenChars_PostOrderTravers t), LevelOrderTravers_eq t⟩

/-- C14: the tree returned by New() has Size() = 0 and a nil root; on that
root PreOrderTravers, InOrderTravers, PostOrderTravers and LevelOrderTravers
return the empty string, and Output leaves the target string as it was, for
every prefix and flag. -/
theorem empty_tree_round_trip :
    New.Size = 0 ∧ New.Root = Node.nil ∧
      PreOrderTravers New.Root = "" ∧ InOrderTravers New.Root = "" ∧
      PostOrderTravers New.Root = "" ∧ LevelOrderTravers New.Root = "" ∧
      ∀ (pfx : String) (isTail : Bool) (s : String), Output New.Root pfx isTail s = s :=
  ⟨rfl, rfl, rfl, rfl, rfl, rfl, fun _ _ _ => rfl⟩

/-! ## Level order is breadth first -/

theorem keysAtDepth_nil (d : Nat) : keysAtDepth d Node.nil = [] := by
  cases d <;> rfl

theorem levelOrderLoop_cons (fuel : Nat) (k v : Int) (l r : Node) (h : Int)
    (q : List Node) :
    levelOrderLoop (fuel + 1) (Node.node k v l r h :: q) =
      k :: levelOrderLoop fuel (q ++ children (Node.node k v l r h)) := by
  cases l <;> cases r <;> simp [levelOrderLoop, children, Node.isNil]

theorem keysAtDepth_succ (d : Nat) (x : Node) :
    keysAtDepth (d + 1) x = (children x).flatMap (keysAtDepth d) := by
  cases x with
  | nil => rfl
  | node k v l r h =>
    cases l <;> cases r <;> simp [keysAtDepth, children, Node.isNil, keysAtDepth_nil]

theorem children_ne_nil {x y : Node} (h : y ∈ children x) : y ≠ Node.nil := by
  cases x with
  | nil => simp [children] at h
  | node k v l r h0 =>
    cases l <;> cases r <;> simp [children, Node.isNil] at h
    · rw [h]; simp
    · rw [h]; simp
    · rcases h with h | h <;> (rw [h]; simp)

theorem forestSize_nil : forestSize [] = 0 := rfl

theorem forestSize_cons (x : Node) (q : List Node) :
    forestSize (x :: q) = countNodes x + forestSize q := by
  simp [forestSize]

theorem forestSize_append (a b : List Node) :
    forestSize (a ++ b) = forestSize a + forestSize b := by
  simp [forestSize]

theorem forestSize_children (x : Node) (hx : x ≠ Node.nil) :
    forestSize (children x) + 1 = countNodes x := by
  cases x with
  | nil => exact absurd rfl hx
  | node k v l r h =>
    cases l <;> cases r <;> simp [children, Node.isNil, forestSize, countNodes]

theorem forestSize_flatMap_children (q : List Node) (hq : ∀ x ∈ q, x ≠ Node.nil) :
    forestSize (q.flatMap children) + q.length = forestSize q := by
  induction q with
  | nil => rfl
  | cons x q ih =>
    have h1 := forestSize_children x (hq x (List.mem_cons_self _ _))
    have h2 := ih fun y hy => hq y (List.mem_cons_of_mem _ hy)
    simp only [List.flatMap_cons, forestSize_append, forestSize_cons, List.length_cons]
    omega

theorem keysAtDepth_of_countNodes_le {t : Node} {d : Nat} (h : countNodes t ≤ d) :
    keysAtDepth d t = [] := by
  induction t generalizing d with
  | nil => exact keysAtDepth_nil d
  | node k v l r h0 ihl ihr =>
    simp only [countNodes] at h
    obtain ⟨e, rfl⟩ : ∃ e, d = e + 1 := ⟨d - 1, by omega⟩
    simp only [keysAtDepth]
    rw [ihl (by omega), ihr (by omega)]
    rfl

theorem keysAtDepth_of_levels_le {t : Node} {d : Nat} (h : levels t ≤ d) :
    keysAtDepth d t = [] := by
  induction t generalizing d with
  | nil => exact keysAtDepth_nil d
  | node k v l r h0 ihl ihr =>
    simp only [levels] at h
    obtain ⟨e, rfl⟩ : ∃ e, d = e + 1 := ⟨d - 1, by omega⟩
    simp only [keysAtDepth]
    rw [ihl (by omega), ihr (by omega)]
    rfl

theorem levels_le_countNodes (t : Node) : levels t ≤ countNodes t := by
  induction t with
  | nil => exact le_refl _
  | node k v l r h ihl ihr => simp only [levels, countNodes]; omega

theorem forestLevels_nil (D : Nat) : forestLevels D [] = [] := by
  induction D with
  | zero => rfl
  | succ D ih =>
    unfold forestLevels at ih ⊢
    rw [List.range_succ, List.flatMap_append, ih]
    rfl

theorem forestLevels_succ (D : Nat) (q : List Node) :
    forestLevels (D + 1) q =
      q.flatMap (keysAtDepth 0) ++ forestLevels D (q.flatMap children) := by
  unfold forestLevels
  rw [List.range_succ_eq_map, List.flatMap_cons, List.flatMap_map]
  congr 1
  apply List.flatMap_congr
  intro d _
  rw [List.flatMap_assoc]
  apply List.flatMap_congr
  intro x _
  exact keysAtDepth_succ d x

theorem levelOrderLoop_spec (fuel : Nat) :
    ∀ a b : List Node, (∀ x ∈ a ++ b, x ≠ Node.nil) → forestSize (a ++ b) ≤ fuel →
      ∀ D, forestSize (b ++ a.flatMap children) ≤ D →
        levelOrderLoop fuel (a ++ b) =
          a.flatMap (keysAtDepth 0) ++ forestLevels D (b ++ a.flatMap children) := by
  induction fuel with
  | zero =>
    intro a b hn hs D _
    cases a with
    | nil =>
      cases b with
      | nil => simp [levelOrderLoop, forestLevels_nil]
      | cons y b =>
        have := forestSize_children y (hn y (by simp))
        simp only [List.nil_append, forestSize_cons] at hs
        omega
    | cons x a =>
      have := forestSize_children x (hn x (by simp))
      simp only [List.cons_append, forestSize_cons] at hs
      omega
  | succ fuel ih =>
    intro a b hn hs D hD
    cases a with
    | nil =>
      cases b with
      | nil => simp [levelOrderLoop, forestLevels_nil]
      | cons y b =>
        have hy : y ≠ Node.nil := hn y (by simp)
        have hb : ∀ x ∈ b, x ≠ Node.nil := fun x hx => hn x (by simp [hx])
        have hcy := forestSize_children y hy
        have hcb := forestSize_flatMap_children b hb
        cases y with
        | nil => exact absurd rfl hy
        | node k v l r h =>
          simp only [List.nil_append, List.flatMap_nil, List.append_nil, forestSize_cons] at hs hD ⊢
          obtain ⟨E, rfl⟩ : ∃ E, D = E + 1 := ⟨D - 1, by omega⟩
          rw [levelOrderLoop_cons, forestLevels_succ]
          have := ih b (children (Node.node k v l r h))
            (fun x hx => by
              rcases List.mem_append.mp hx with hx | hx
              · exact hb x hx
              · exact children_ne_nil hx)
            (by rw [forestSize_append]; omega) E
            (by rw [forestSize_append]; omega)
          rw [this]
          simp [keysAtDepth]
    | cons x a =>
      have hx : x ≠ Node.nil := hn x (by simp)
      have hcx := forestSize_children x hx
      cases x with
      | nil => exact absurd rfl hx
      | node k v l r h =>
        simp only [List.cons_append, forestSize_cons, List.flatMap_cons, forestSize_append]
          at hs hD ⊢
        rw [levelOrderLoop_cons, List.append_assoc]
        have := ih a (b ++ children (Node.node k v l r h))
          (fun y hy => by
            rcases List.mem_append.mp hy with hy | hy
            · exact hn y (by simp [hy])
            · rcases List.mem_append.mp hy with hy | hy
              · exact hn y (by simp [hy])
              · exact children_ne_nil hy)
          (by simp only [forestSize_append]; omega) D
          (by simp only [forestSize_append]; omega)
        rw [this]
        simp [keysAtDepth]

theorem flatMap_preOrderKeys_children (x : Node) (hx : x ≠ Node.nil) :
    ∃ k, preOrderKeys x = k :: (children x).flatMap preOrderKeys ∧
      keysAtDepth 0 x = [k] := by
  cases x with
  | nil => exact absurd rfl hx
  | node k v l r h =>
    refine ⟨k, ?_, rfl⟩
    cases l <;> cases r <;> simp [children, Node.isNil, preOrderKeys]

theorem levelOrderLoop_perm (fuel : Nat) :
    ∀ q : List Node, (∀ x ∈ q, x ≠ Node.nil) → forestSize q ≤ fuel →
      (levelOrderLoop fuel q).Perm (q.flatMap preOrderKeys) := by
  induction fuel with
  | zero =>
    intro q hn hs
    cases q with
    | nil => simp [levelOrderLoop]
    | cons x q =>
      have := forestSize_children x (hn x (by simp))
      simp only [forestSize_cons] at hs
      omega
  | succ fuel ih =>
    intro q hn hs
    cases q with
    | nil => simp [levelOrderLoop]
    | cons x q =>
      have hx : x ≠ Node.nil := hn x (by simp)
      have hcx := forestSize_children x hx
      obtain ⟨k0, hk0, -⟩ := flatMap_preOrderKeys_children x hx
      cases x with
      | nil => exact absurd rfl hx
      | node k v l r h =>
        simp only [forestSize_cons] at hs
        have hk : k0 = k := by
          simp only [preOrderKeys, List.cons.injEq] at hk0
          exact hk0.1.symm
        subst hk
        rw [levelOrderLoop_cons, List.flatMap_cons, hk0]
        have := ih (q ++ children (Node.node k0 v l r h))
          (fun y hy => by
            rcases List.mem_append.mp hy with hy | hy
            · exact hn y (by simp [hy])
            · exact children_ne_nil hy)
          (by rw [forestSize_append]; omega)
        rw [List.flatMap_append] at this
        exact (this.trans List.perm_append_comm).cons k0

theorem length_preOrderKeys (t : Node) : (preOrderKeys t).length = countNodes t := by
  induction t with
  | nil => rfl
  | node k v l r h ihl ihr => simp [preOrderKeys, countNodes, ihl, ihr]

theorem range_flatMap_keysAtDepth (t : Node) (n : Nat) (h : levels t ≤ n) :
    ((List.range n).flatMap fun d => keysAtDepth d t) = keysByDepth t := by
  induction n with
  | zero =>
    have : levels t = 0 := by omega
    simp [keysByDepth, this]
  | succ n ih =>
    rcases Nat.lt_or_ge n (levels t) with hlt | hge
    · have : levels t = n + 1 := by omega
      simp [keysByDepth, this]
    · rw [List.range_succ, List.flatMap_append, ih hge]
      simp [keysAtDepth_of_levels_le hge]

theorem levelOrderLoop_singleton (t : Node) (ht : t ≠ Node.nil) (fuel : Nat)
    (hf : countNodes t ≤ fuel) : levelOrderLoop fuel [t] = keysByDepth t := by
  have hc := forestSize_children t ht
  have h := levelOrderLoop_spec fuel [t] [] (by simpa using ht)
    (by simpa [forestSize] using hf) (forestSize (children t)) (by simp)
  simp only [List.append_nil, List.nil_append, List.flatMap_cons, List.flatMap_nil] at h
  rw [h, ← range_flatMap_keysAtDepth t (forestSize (children t) + 1)
    (by have := levels_le_countNodes t; omega)]
  have e := forestLevels_succ (forestSize (children t)) [t]
  simp only [List.flatMap_cons, List.flatMap_nil, List.append_nil] at e
  rw [← e]
  simp [forestLevels]

/-- C17: for every tree, the key sequence produced by the queue-driven loop of
LevelOrderTravers is the concatenation, for depth d = 0, 1, 2, ..., of the keys
of the nodes at depth d listed left to right; it is a rearrangement of the keys
of all nodes, one entry per node; and the loop reaches the empty queue within
as many iterations as the tree has nodes (more iterations change nothing). -/
theorem levelOrder_is_breadth_first (t : Node) :
    levelOrderKeys t = keysByDepth t ∧ (levelOrderKeys t).Perm (preOrderKeys t) ∧
      (levelOrderKeys t).length = countNodes t ∧
      ∀ fuel, countNodes t ≤ fuel → levelOrderLoop fuel [t] = levelOrderKeys t := by
  cases t with
  | nil =>
    refine ⟨rfl, List.Perm.refl _, rfl, fun fuel _ => ?_⟩
    cases fuel <;> rfl
  | node k v l r h =>
    have hne : Node.node k v l r h ≠ Node.nil := by simp
    have e : levelOrderKeys (Node.node k v l r h) = keysByDepth (Node.node k v l r h) := by
      simp only [levelOrderKeys, Node.isNil]
      exact levelOrderLoop_singleton _ hne _ (le_refl _)
    have hp : (levelOrderKeys (Node.node k v l r h)).Perm
        (preOrderKeys (Node.node k v l r h)) := by
      simp only [levelOrderKeys, Node.isNil]
      have := levelOrderLoop_perm (countNodes (Node.node k v l r h)) [Node.node k v l r h]
        (by simp) (by simp [forestSize])
      simpa using this
    refine ⟨e, hp, ?_, fun fuel hf => ?_⟩
    · rw [hp.length_eq, length_preOrderKeys]
    · rw [e]; exact levelOrderLoop_singleton _ hne fuel hf

end AVL

/-!
# Theorems about the package `graph`
-/

namespace graph

/-- C19: on the graph NewGraph(1) the call AddEdge("a", "a", 7) stores the
self-loop twice in the adjacency list of "a": the existence test runs once,
before the first append, and the second append (meant for the other endpoint)
goes to the same list, so the list has two edges with the same (dest, weight)
pair. -/
theorem self_loop_is_stored_twice :
    ((NewGraph 1).AddEdge "a" "a" 7).adj "a" = [⟨"a", "a", 7⟩, ⟨"a", "a", 7⟩] ∧
      ¬ ((((NewGraph 1).AddEdge "a" "a" 7).adj "a").map fun e => (e.dest, e.weight)).Nodup := by
  decide

/-! ## What `AddEdge` keeps

Apart from the self-loops of the theorem above the two properties hold: the
adjacency is symmetric after every sequence of calls, and no adjacency list has
a repeated (dest, weight) pair when no call has `v = w`. -/

theorem adj_setAdj (g : Graph) (v : String) (es : List Edge) (k : String) :
    (g.setAdj v es).adj k = if k = v then es else g.adj k := by
  simp only [Graph.adj, Graph.setAdj]
  split_ifs <;> rfl

theorem any_iff_hasEdge (g : Graph) (v w : String) (x : Int) :
    ((g.adj v).any fun edge => edge.dest = w ∧ edge.weight = x) = true ↔ g.hasEdge v w x := by
  simp [Graph.hasEdge]

theorem adj_AddEdge_skip (g : Graph) (v w : String) (x : Int) (k : String)
    (hc : (v = "" ∨ w = "") ∨ g.hasEdge v w x) : (g.AddEdge v w x).adj k = g.adj k := by
  unfold Graph.AddEdge
  by_cases h1 : v = "" ∨ w = ""
  · rw [if_pos h1]
  · have h2 : g.hasEdge v w x := hc.resolve_left h1
    rw [if_neg h1, if_pos ((any_iff_hasEdge g v w x).mpr h2)]

theorem adj_ensure (g1 : Graph) (w j : String) :
    (if (g1.Adj w).isSome = true then g1 else g1.setAdj w []).adj j = g1.adj j := by
  split_ifs with hs
  · rfl
  · rw [adj_setAdj]
    split_ifs with hj
    · subst hj
      cases hA : g1.Adj j with
      | none => simp [Graph.adj, hA]
      | some es => simp [hA] at hs
    · rfl

theorem adj_AddEdge_add (g : Graph) (v w : String) (x : Int) (k : String)
    (hc : ¬ ((v = "" ∨ w = "") ∨ g.hasEdge v w x)) :
    (g.AddEdge v w x).adj k =
      g.adj k ++ (if k = v then [⟨v, w, x⟩] else []) ++ (if k = w then [⟨w, v, x⟩] else []) := by
  have h1 : ¬ (v = "" ∨ w = "") := fun h => hc (Or.inl h)
  have h3 : ¬ ((g.adj v).any fun edge => edge.dest = w ∧ edge.weight = x) = true :=
    fun h => hc (Or.inr ((any_iff_hasEdge g v w x).mp h))
  unfold Graph.AddEdge
  rw [if_neg h1, if_neg h3]
  simp only [adj_setAdj, adj_ensure]
  by_cases hkw : k = w
  · subst hkw
    by_cases hkv : k = v
    · subst hkv; simp
    · simp [hkv]
  · by_cases hkv : k = v
    · subst hkv; simp [hkw]
    · simp [hkw, hkv]

theorem hasEdge_AddEdge (g : Graph) (v w : String) (x : Int) (a b : String) (y : Int) :
    (g.AddEdge v w x).hasEdge a b y ↔
      g.hasEdge a b y ∨
        (¬ ((v = "" ∨ w = "") ∨ g.hasEdge v w x) ∧
          ((a = v ∧ b = w ∧ y = x) ∨ (a = w ∧ b = v ∧ y = x))) := by
  by_cases hc : (v = "" ∨ w = "") ∨ g.hasEdge v w x
  · unfold Graph.hasEdge
    rw [adj_AddEdge_skip g v w x a hc]
    constructor
    · exact Or.inl
    · rintro (h | ⟨h, -⟩)
      · exact h
      · exact absurd hc h
  · unfold Graph.hasEdge
    rw [adj_AddEdge_add g v w x a hc]
    simp only [List.mem_append]
    constructor
    · rintro ⟨e, (he | he) | he, hb, hy⟩
      · exact Or.inl ⟨e, he, hb, hy⟩
      · split_ifs at he with hav
        · rw [List.mem_singleton] at he
          subst he
          exact Or.inr ⟨hc, Or.inl ⟨hav, hb.symm, hy.symm⟩⟩
        · exact absurd he (List.not_mem_nil e)
      · split_ifs at he with haw
        · rw [List.mem_singleton] at he
          subst he
          exact Or.inr ⟨hc, Or.inr ⟨haw, hb.symm, hy.symm⟩⟩
        · exact absurd he (List.not_mem_nil e)
    · rintro (⟨e, he, hb, hy⟩ | ⟨-, ⟨hav, hb, hy⟩ | ⟨haw, hb, hy⟩⟩)
      · exact ⟨e, Or.inl (Or.inl he), hb, hy⟩
      · exact ⟨⟨v, w, x⟩, Or.inl (Or.inr (by simp [hav])), hb.symm, hy.symm⟩
      · exact ⟨⟨w, v, x⟩, Or.inr (by simp [haw]), hb.symm, hy.symm⟩

theorem symmetric_AddEdge {g : Graph} (h : g.Symmetric) (v w : String) (x : Int) :
    (g.AddEdge v w x).Symmetric := by
  intro a b y
  rw [hasEdge_AddEdge, hasEdge_AddEdge, h a b y]
  tauto

theorem not_mem_pairs_of_not_hasEdge {g : Graph} {v w : String} {x : Int}
    (h : ¬ g.hasEdge v w x) : (w, x) ∉ (g.adj v).map fun e => (e.dest, e.weight) := by
  intro hm
  obtain ⟨e, he, hp⟩ := List.mem_map.mp hm
  simp only [Prod.mk.injEq] at hp
  exact h ⟨e, he, hp.1, hp.2⟩

theorem noDuplicates_AddEdge {g : Graph} (hn : g.NoDuplicates) (hs : g.Symmetric)
    {v w : String} (hvw : v ≠ w) (x : Int) : (g.AddEdge v w x).NoDuplicates := by
  intro k
  by_cases hc : (v = "" ∨ w = "") ∨ g.hasEdge v w x
  · rw [adj_AddEdge_skip g v w x k hc]; exact hn k
  · rw [adj_AddEdge_add g v w x k hc]
    have hnot : ¬ g.hasEdge v w x := fun h => hc (Or.inr h)
    have hnot1 : ¬ g.hasEdge w v x := fun h => hnot ((hs v w x).mpr h)
    by_cases hkv : k = v
    · subst hkv
      have hkw : ¬ k = w := hvw
      simp only [if_true, if_neg hkw, List.append_nil, List.map_append, List.map_cons,
        List.map_nil]
      exact List.Nodup.append (hn k) (List.nodup_singleton _)
        (List.disjoint_singleton.mpr (not_mem_pairs_of_not_hasEdge hnot))
    · by_cases hkw : k = w
      · subst hkw
        simp only [if_neg hkv, if_true, List.append_nil, List.map_append, List.map_cons,
          List.map_nil]
        exact List.Nodup.append (hn k) (List.nodup_singleton _)
          (List.disjoint_singleton.mpr (not_mem_pairs_of_not_hasEdge hnot1))
      · simp only [if_neg hkv, if_neg hkw, List.append_nil]
        exact hn k

theorem addEdges_keeps (g : Graph) (calls : List (String × String × Int))
    (hs : g.Symmetric) :
    (addEdges g calls).Symmetric ∧
      (g.NoDuplicates → (∀ c ∈ calls, c.1 ≠ c.2.1) → (addEdges g calls).NoDuplicates) := by
  induction calls generalizing g with
  | nil => exact ⟨hs, fun hn _ => hn⟩
  | cons c calls ih =>
    obtain ⟨h1, h2⟩ := ih (g.AddEdge c.1 c.2.1 c.2.2) (symmetric_AddEdge hs _ _ _)
    refine ⟨h1, fun hn hc => ?_⟩
    exact h2 (noDuplicates_AddEdge hn hs (hc c (List.mem_cons_self _ _)) _)
      fun d hd => hc d (List.mem_cons_of_mem _ hd)

theorem newGraph_addEdges (n : Int) (calls : List (String × String × Int)) :
    (addEdges (NewGraph n) calls).Symmetric ∧
      ((∀ c ∈ calls, c.1 ≠ c.2.1) → (addEdges (NewGraph n) calls).NoDuplicates) := by
  have hs : (NewGraph n).Symmetric := fun v w x => by
    simp [Graph.hasEdge, Graph.adj, NewGraph]
  have hn : (NewGraph n).NoDuplicates := fun v => by
    simp [Graph.adj, NewGraph]
  exact ⟨(addEdges_keeps _ calls hs).1, (addEdges_keeps _ calls hs).2 hn⟩

/-! ## Insertion sort -/

theorem shiftLoop_perm (key : Edge) (ws : Bool) (xs : List Edge) :
    (shiftLoop key ws xs).Perm (key :: xs) := by
  induction xs with
  | nil => exact List.Perm.refl _
  | cons x xs ih =>
    simp only [shiftLoop]
    split_ifs
    · exact (ih.cons x).trans (List.Perm.swap key x xs)
    · exact List.Perm.refl _

theorem shiftLoop_sorted (key : Edge) {xs : List Edge}
    (h : xs.Pairwise fun a b => b.weight ≤ a.weight) :
    (shiftLoop key true xs).Pairwise fun a b => b.weight ≤ a.weight := by
  induction xs with
  | nil => simp [shiftLoop]
  | cons x xs ih =>
    rw [List.pairwise_cons] at h
    simp only [shiftLoop]
    split_ifs with hc
    · have hx : key.weight < x.weight := by simpa [compareEdges] using hc
      refine List.pairwise_cons.mpr ⟨?_, ih h.2⟩
      intro b hb
      rcases List.mem_cons.mp ((shiftLoop_perm key true xs).mem_iff.mp hb) with hb | hb
      · rw [hb]; omega
      · exact h.1 b hb
    · have hx : x.weight ≤ key.weight := by simpa [compareEdges] using hc
      refine List.pairwise_cons.mpr ⟨?_, List.pairwise_cons.mpr h⟩
      intro b hb
      rcases List.mem_cons.mp hb with hb | hb
      · rw [hb]; exact hx
      · exact le_trans (h.1 b hb) hx

theorem foldl_shiftLoop (arr acc : List Edge)
    (h : acc.Pairwise fun a b => b.weight ≤ a.weight) :
    (arr.foldl (fun sortedRev key => shiftLoop key true sortedRev) acc).Perm (arr.reverse ++ acc) ∧
      (arr.foldl (fun sortedRev key => shiftLoop key true sortedRev) acc).Pairwise
        fun a b => b.weight ≤ a.weight := by
  induction arr generalizing acc with
  | nil => exact ⟨by simp, h⟩
  | cons x arr ih =>
    obtain ⟨hp, hs⟩ := ih (shiftLoop x true acc) (shiftLoop_sorted x h)
    refine ⟨?_, hs⟩
    simp only [List.foldl_cons, List.reverse_cons, List.append_assoc, List.singleton_append]
    exact hp.trans (List.Perm.append_left _ (shiftLoop_perm x true acc))

theorem insertionSort_perm (arr : List Edge) : (insertionSort arr true).Perm arr := by
  have h := (foldl_shiftLoop arr [] List.Pairwise.nil).1
  rw [List.append_nil] at h
  exact (List.reverse_perm _).trans (h.trans (List.reverse_perm _))

theorem insertionSort_sorted (arr : List Edge) :
    (insertionSort arr true).Pairwise fun a b => a.weight ≤ b.weight := by
  have h := (foldl_shiftLoop arr [] List.Pairwise.nil).2
  unfold insertionSort
  rw [List.pairwise_reverse]
  exact h

/-! ## Connected components and their representatives -/

theorem Reach.refl (es : List Edge) (x : String) : Reach es x x :=
  Relation.EqvGen.refl x

theorem Reach.symm {es : List Edge} {x y : String} (h : Reach es x y) : Reach es y x :=
  Relation.EqvGen.symm x y h

theorem Reach.trans {es : List Edge} {x y z : String} (h1 : Reach es x y)
    (h2 : Reach es y z) : Reach es x z :=
  Relation.EqvGen.trans x y z h1 h2

theorem Reach.of_mem {es : List Edge} {e : Edge} (h : e ∈ es) : Reach es e.src e.dest :=
  Relation.EqvGen.rel _ _ ⟨e, h, rfl, rfl⟩

theorem Reach.induct {es : List Edge} {r : String → String → Prop} (hrefl : ∀ x, r x x)
    (hsymm : ∀ x y, r x y → r y x) (htrans : ∀ x y z, r x y → r y z → r x z)
    (hedge : ∀ e ∈ es, r e.src e.dest) {x y : String} (h : Reach es x y) : r x y := by
  induction h with
  | rel a b hab =>
    obtain ⟨e, he, rfl, rfl⟩ := hab
    exact hedge e he
  | refl a => exact hrefl a
  | symm a b _ ih => exact hsymm a b ih
  | trans a b c _ _ ih1 ih2 => exact htrans a b c ih1 ih2

theorem Reach.mono {es1 es2 : List Edge} (h : ∀ e ∈ es1, e ∈ es2) {x y : String}
    (hxy : Reach es1 x y) : Reach es2 x y :=
  Reach.induct (Reach.refl es2) (fun _ _ => Reach.symm) (fun _ _ _ => Reach.trans)
    (fun e he => Reach.of_mem (h e he)) hxy

theorem Reach.rep_eq {es : List Edge} {rep : String → String}
    (hedge : ∀ e ∈ es, rep e.src = rep e.dest) {x y : String} (h : Reach es x y) :
    rep x = rep y :=
  Reach.induct (r := fun a b => rep a = rep b) (fun _ => rfl) (fun _ _ => Eq.symm)
    (fun _ _ _ => Eq.trans) hedge h

theorem represents_nil : Represents id [] := by
  intro x y
  constructor
  · intro h
    exact (Reach.rep_eq (fun e he => absurd he (List.not_mem_nil e)) h : id x = id y)
  · intro h
    have : x = y := h
    rw [this]
    exact Reach.refl _ _

theorem Represents.add_same {rep : String → String} {es es1 : List Edge} {e : Edge}
    (h : Represents rep es) (hmem : ∀ x, x ∈ es1 ↔ x = e ∨ x ∈ es)
    (he : rep e.src = rep e.dest) : Represents rep es1 := by
  intro x y
  constructor
  · intro hxy
    refine Reach.rep_eq ?_ hxy
    intro f hf
    rcases (hmem f).mp hf with hf | hf
    · rw [hf]; exact he
    · exact (h _ _).mp (Reach.of_mem hf)
  · intro hxy
    exact Reach.mono (fun f hf => (hmem f).mpr (Or.inr hf)) ((h x y).mpr hxy)

theorem Represents.add_merge {rep : String → String} {es es1 : List Edge} {e : Edge}
    (h : Represents rep es) (hmem : ∀ x, x ∈ es1 ↔ x = e ∨ x ∈ es)
    (he : rep e.src ≠ rep e.dest) : Represents (mergeRep rep e.src e.dest) es1 := by
  have hmono : ∀ {x y}, rep x = rep y → Reach es1 x y := fun hxy =>
    Reach.mono (fun f hf => (hmem f).mpr (Or.inr hf)) ((h _ _).mpr hxy)
  have hedge : Reach es1 e.src e.dest := Reach.of_mem ((hmem e).mpr (Or.inl rfl))
  intro x y
  constructor
  · intro hxy
    refine Reach.rep_eq ?_ hxy
    intro f hf
    rcases (hmem f).mp hf with hf | hf
    · rw [hf]
      simp [mergeRep, he]
    · have := (h _ _).mp (Reach.of_mem hf)
      simp [mergeRep, this]
  · intro hxy
    simp only [mergeRep] at hxy
    by_cases hx : rep x = rep e.dest <;> by_cases hy : rep y = rep e.dest
    · exact hmono (hx.trans hy.symm)
    · rw [if_pos hx, if_neg hy] at hxy
      exact ((hmono hx).trans hedge.symm).trans (hmono hxy)
    · rw [if_neg hx, if_pos hy] at hxy
      exact ((hmono hxy).trans hedge).trans (hmono hy.symm)
    · rw [if_neg hx, if_neg hy] at hxy
      exact hmono hxy

theorem image_mergeRep_superset (V : Finset String) (rep : String → String) (a b : String) :
    (V.image rep).erase (rep b) ⊆ V.image (mergeRep rep a b) := by
  intro z hz
  obtain ⟨hzb, hz⟩ := Finset.mem_erase.mp hz
  obtain ⟨x, hx, rfl⟩ := Finset.mem_image.mp hz
  exact Finset.mem_image.mpr ⟨x, hx, by simp [mergeRep, hzb]⟩

theorem card_image_mergeRep_ge (V : Finset String) (rep : String → String) (a b : String) :
    (V.image rep).card ≤ (V.image (mergeRep rep a b)).card + 1 := by
  have h1 := Finset.card_le_card (image_mergeRep_superset V rep a b)
  have h2 := Finset.pred_card_le_card_erase (s := V.image rep) (a := rep b)
  omega

theorem card_image_mergeRep (V : Finset String) (rep : String → String) {a b : String}
    (ha : a ∈ V) (hb : b ∈ V) (hab : rep a ≠ rep b) :
    (V.image (mergeRep rep a b)).card + 1 = (V.image rep).card := by
  have e : V.image (mergeRep rep a b) = (V.image rep).erase (rep b) := by
    apply Finset.Subset.antisymm _ (image_mergeRep_superset V rep a b)
    intro z hz
    obtain ⟨x, hx, rfl⟩ := Finset.mem_image.mp hz
    simp only [mergeRep]
    split_ifs with hc
    · exact Finset.mem_erase.mpr ⟨hab, Finset.mem_image_of_mem _ ha⟩
    · exact Finset.mem_erase.mpr ⟨hc, Finset.mem_image_of_mem _ hx⟩
  rw [e, Finset.card_erase_of_mem (Finset.mem_image_of_mem _ hb)]
  have : 0 < (V.image rep).card := Finset.card_pos.mpr ⟨_, Finset.mem_image_of_mem _ hb⟩
  omega

theorem card_image_le_of_imp (V : Finset String) (repA repB : String → String)
    (h : ∀ x ∈ V, ∀ y ∈ V, repA x = repA y → repB x = repB y) :
    (V.image repB).card ≤ (V.image repA).card := by
  classical
  have hex : ∀ z ∈ V.image repB, ∃ x, x ∈ V ∧ repB x = z := fun z hz => by
    obtain ⟨x, hx, hxz⟩ := Finset.mem_image.mp hz
    exact ⟨x, hx, hxz⟩
  choose! pick hpick using hex
  apply Finset.card_le_card_of_injOn (fun z => repA (pick z))
  · intro z hz
    exact Finset.mem_image_of_mem _ (hpick z hz).1
  · intro z1 hz1 z2 hz2 heq
    have h1 := hpick z1 hz1
    have h2 := hpick z2 hz2
    have := h _ h1.1 _ h2.1 heq
    rw [h1.2, h2.2] at this
    exact this

theorem card_image_le_one (V : Finset String) (rep : String → String)
    (h : ∀ x ∈ V, ∀ y ∈ V, rep x = rep y) : (V.image rep).card ≤ 1 := by
  rw [Finset.card_le_one]
  intro a ha b hb
  obtain ⟨x, hx, rfl⟩ := Finset.mem_image.mp ha
  obtain ⟨y, hy, rfl⟩ := Finset.mem_image.mp hb
  exact h x hx y hy

theorem rep_eq_of_card_le_one (V : Finset String) (rep : String → String)
    (h : (V.image rep).card ≤ 1) {x y : String} (hx : x ∈ V) (hy : y ∈ V) : rep x = rep y :=
  Finset.card_le_one.mp h _ (Finset.mem_image_of_mem _ hx) _ (Finset.mem_image_of_mem _ hy)

theorem exists_rep_append (V : Finset String) (B A : List Edge) (repA : String → String)
    (hA : Represents repA A) :
    ∃ rep, Represents rep (B ++ A) ∧ (V.image repA).card ≤ (V.image rep).card + B.length := by
  induction B with
  | nil => exact ⟨repA, hA, by simp⟩
  | cons e B ih =>
    obtain ⟨rep1, h1, hc1⟩ := ih
    have hmem : ∀ x, x ∈ e :: B ++ A ↔ x = e ∨ x ∈ B ++ A := fun x => by simp
    by_cases he : rep1 e.src = rep1 e.dest
    · exact ⟨rep1, h1.add_same hmem he, by simp only [List.length_cons]; omega⟩
    · refine ⟨mergeRep rep1 e.src e.dest, h1.add_merge hmem he, ?_⟩
      have := card_image_mergeRep_ge V rep1 e.src e.dest
      simp only [List.length_cons]
      omega

/-! ## Comparing total weights by thresholds -/

theorem exists_weight_bounds (es : List Edge) :
    ∃ L M : Int, ∀ e ∈ es, L ≤ e.weight ∧ e.weight ≤ M := by
  induction es with
  | nil => exact ⟨0, 0, fun e he => absurd he (List.not_mem_nil e)⟩
  | cons x es ih =>
    obtain ⟨L, M, h⟩ := ih
    refine ⟨min L x.weight, max M x.weight, ?_⟩
    intro e he
    rcases List.mem_cons.mp he with he | he
    · rw [he]; exact ⟨min_le_right _ _, le_max_right _ _⟩
    · exact ⟨le_trans (min_le_left _ _) (h e he).1, le_trans (h e he).2 (le_max_left _ _)⟩

theorem sum_indicator_Ico (L M x : Int) (hL : L ≤ x) (hM : x ≤ M) :
    (∑ t in Finset.Ico L M, if x ≤ t then (1 : Int) else 0) = M - x := by
  rw [Finset.sum_boole]
  have e : (Finset.Ico L M).filter (fun t => x ≤ t) = Finset.Ico x M := by
    ext t
    simp only [Finset.mem_filter, Finset.mem_Ico]
    constructor
    · rintro ⟨⟨_, h2⟩, h3⟩; exact ⟨h3, h2⟩
    · rintro ⟨h1, h2⟩; exact ⟨⟨le_trans hL h1, h2⟩, h1⟩
  rw [e, Int.card_Ico]
  omega

theorem layer_sum (es : List Edge) (L M : Int)
    (h : ∀ e ∈ es, L ≤ e.weight ∧ e.weight ≤ M) :
    (es.length : Int) * M - totalWeight es =
      ∑ t in Finset.Ico L M, ((es.countP fun e => e.weight ≤ t : Nat) : Int) := by
  induction es with
  | nil => simp [totalWeight]
  | cons x es ih =>
    have hx := h x (List.mem_cons_self _ _)
    have ih1 := ih fun e he => h e (List.mem_cons_of_mem _ he)
    have hs := sum_indicator_Ico L M x.weight hx.1 hx.2
    have e : ∀ t : Int, (((x :: es).countP fun e => e.weight ≤ t : Nat) : Int) =
        ((es.countP fun e => e.weight ≤ t : Nat) : Int) + if x.weight ≤ t then 1 else 0 := by
      intro t
      rw [List.countP_cons]
      by_cases hc : x.weight ≤ t <;> simp [hc]
    simp only [e, Finset.sum_add_distrib, hs, ← ih1, totalWeight, List.map_cons, List.sum_cons,
      List.length_cons]
    push_cast
    ring

theorem totalWeight_le_of_thresholds (K T : List Edge) (hlen : K.length = T.length)
    (h : ∀ t : Int, (T.countP fun e => e.weight ≤ t) ≤ K.countP fun e => e.weight ≤ t) :
    totalWeight K ≤ totalWeight T := by
  obtain ⟨L, M, hb⟩ := exists_weight_bounds (K ++ T)
  have hK := layer_sum K L M fun e he => hb e (List.mem_append.mpr (Or.inl he))
  have hT := layer_sum T L M fun e he => hb e (List.mem_append.mpr (Or.inr he))
  have hsum : (∑ t in Finset.Ico L M, ((T.countP fun e => e.weight ≤ t : Nat) : Int)) ≤
      ∑ t in Finset.Ico L M, ((K.countP fun e => e.weight ≤ t : Nat) : Int) :=
    Finset.sum_le_sum fun t _ => by exact_mod_cast h t
  rw [← hK, ← hT, hlen] at hsum
  omega

theorem countP_le_of_thresholds (V : Finset String) (T : List Edge) (t : Int)
    (rep : String → String) (c : Nat) (hTlen : T.length + 1 = V.card)
    (hTconn : ∀ u ∈ V, ∀ v ∈ V, Reach T u v)
    (hcard : (V.image rep).card + c = V.card)
    (hcover : ∀ e ∈ T, e.weight ≤ t → rep e.src = rep e.dest) :
    (T.countP fun e => e.weight ≤ t) ≤ c := by
  obtain ⟨repF, hF, -⟩ :=
    exists_rep_append V (T.filter fun e => e.weight ≤ t) [] id represents_nil
  rw [List.append_nil] at hF
  obtain ⟨repT, hT, hc⟩ :=
    exists_rep_append V (T.filter fun e => ¬ e.weight ≤ t) _ repF hF
  have hall : ∀ u ∈ V, ∀ v ∈ V, repT u = repT v := by
    intro u hu v hv
    refine (hT u v).mp (Reach.mono ?_ (hTconn u hu v hv))
    intro e he
    by_cases hw : e.weight ≤ t
    · exact List.mem_append.mpr (Or.inr (List.mem_filter.mpr ⟨he, by simpa using hw⟩))
    · exact List.mem_append.mpr (Or.inl (List.mem_filter.mpr ⟨he, by simpa using hw⟩))
  have h1 := card_image_le_one V repT hall
  have h2 : (V.image rep).card ≤ (V.image repF).card := by
    apply card_image_le_of_imp
    intro x _ y _ hxy
    refine Reach.rep_eq ?_ ((hF x y).mpr hxy)
    intro e he
    obtain ⟨he1, he2⟩ := List.mem_filter.mp he
    exact hcover e he1 (by simpa using he2)
  have h3 := List.length_eq_countP_add_countP (fun e : Edge => decide (e.weight ≤ t)) (l := T)
  have h4 : (T.filter fun e => ¬ e.weight ≤ t).length =
      T.countP fun e => ¬ decide (e.weight ≤ t) = true := by
    rw [List.countP_eq_length_filter]
    congr 1
    apply List.filter_congr
    intro e _
    simp
  omega

/-! ## The parent map -/

theorem Forest.rep_rep {parent rep : String → String} {dep : String → Nat}
    (h : Forest parent rep dep) (x : String) : rep (rep x) = rep x :=
  (h.1 _ (h.2.2.1 x)).1

theorem Forest.findRoot {parent rep : String → String} {dep : String → Nat}
    (h : Forest parent rep dep) (fuel : Nat) (x : String) (hx : dep x < fuel) :
    findRoot parent fuel x = some (rep x) := by
  induction fuel generalizing x with
  | zero => omega
  | succ fuel ih =>
    simp only [graph.findRoot]
    split_ifs with hp
    · obtain ⟨h1, h2⟩ := h.2.1 x hp
      rw [ih (parent x) (by omega), h1]
    · have hp1 : parent x = "" := by simpa using hp
      rw [(h.1 x hp1).1]

theorem forest_init : Forest (fun _ => "") id (fun _ => 0) :=
  ⟨fun _ _ => ⟨rfl, rfl⟩, fun _ hx => absurd rfl hx, fun _ => rfl, fun _ hx => hx⟩

theorem Forest.union {parent rep : String → String} {dep : String → Nat}
    (h : Forest parent rep dep) {a b : String} (ha : a ≠ "") (hab : rep a ≠ rep b) :
    Forest (fun k => if k = rep b then rep a else parent k) (mergeRep rep a b)
      (fun x => if rep x = rep b then dep x + 1 else dep x) := by
  obtain ⟨h1, h2, h3, h4⟩ := h
  have hra : rep a ≠ "" := h4 a ha
  have hrr : ∀ x, rep (rep x) = rep x := fun x => (h1 _ (h3 x)).1
  refine ⟨?_, ?_, ?_, ?_⟩
  · intro x hx
    dsimp only at hx ⊢
    by_cases hxb : x = rep b
    · rw [if_pos hxb] at hx
      exact absurd hx hra
    · rw [if_neg hxb] at hx
      obtain ⟨e1, e2⟩ := h1 x hx
      have hne : ¬ rep x = rep b := by rw [e1]; exact hxb
      simp only [mergeRep, if_neg hne]
      exact ⟨e1, e2⟩
  · intro x hx
    dsimp only at hx ⊢
    by_cases hxb : x = rep b
    · subst hxb
      have e1 : rep (rep a) ≠ rep b := by rw [hrr]; exact hab
      have e2 := (h1 _ (h3 b)).2
      have e3 := (h1 _ (h3 a)).2
      simp only [mergeRep, if_true, hrr, if_neg e1, if_neg hab, e2, e3]
      exact ⟨trivial, trivial⟩
    · rw [if_neg hxb] at hx
      obtain ⟨e1, e2⟩ := h2 x hx
      simp only [mergeRep, if_neg hxb, ← e1]
      constructor
      · trivial
      · split_ifs <;> omega
  · intro x
    dsimp only [mergeRep]
    by_cases hc : rep x = rep b
    · rw [if_pos hc, if_neg hab]
      exact h3 a
    · rw [if_neg hc, if_neg hc]
      exact h3 x
  · intro x hx
    dsimp only [mergeRep]
    split_ifs
    · exact hra
    · exact h4 x hx

/-! ## The loop of Kruskal's algorithm -/

theorem countP_eq_length_of_le {K : List Edge} {t : Int} (h : ∀ k ∈ K, k.weight ≤ t) :
    (K.countP fun e => e.weight ≤ t) = K.length := by
  rw [List.countP_eq_length]
  intro k hk
  simpa using h k hk

theorem thresholds_step {V : Finset String} {P K K1 : List Edge} {e : Edge}
    (hT : Thresholds V P K) (rep1 : String → String)
    (hcard1 : (V.image rep1).card + K1.length = V.card)
    (hcover1 : ∀ f ∈ P ++ [e], rep1 f.src = rep1 f.dest)
    (hK1 : K1 = K ∨ K1 = K ++ [e]) (hle : ∀ k ∈ K1, k.weight ≤ e.weight) :
    Thresholds V (P ++ [e]) K1 := by
  intro t
  by_cases hw : e.weight ≤ t
  · refine ⟨rep1, ?_, fun f hf _ => hcover1 f hf⟩
    rw [countP_eq_length_of_le fun k hk => le_trans (hle k hk) hw]
    exact hcard1
  · obtain ⟨rept, hc, hcov⟩ := hT t
    refine ⟨rept, ?_, ?_⟩
    · rcases hK1 with rfl | rfl
      · exact hc
      · rw [List.countP_append]
        simpa [List.countP_cons, hw] using hc
    · intro f hf hft
      rcases List.mem_append.mp hf with hf | hf
      · exact hcov f hf hft
      · rw [List.mem_singleton.mp hf] at hft
        exact absurd hft hw

theorem thresholds_extend {V : Finset String} {P R K : List Edge} (hT : Thresholds V P K)
    (hlen : K.length + 1 = V.card) (hR : ∀ r ∈ R, r.src ∈ V ∧ r.dest ∈ V)
    (hle : ∀ k ∈ K, ∀ r ∈ R, k.weight ≤ r.weight) : Thresholds V (P ++ R) K := by
  intro t
  obtain ⟨rept, hc, hcov⟩ := hT t
  refine ⟨rept, hc, ?_⟩
  intro f hf hft
  rcases List.mem_append.mp hf with hf | hf
  · exact hcov f hf hft
  · rw [countP_eq_length_of_le fun k hk => le_trans (hle k hk f hf) hft] at hc
    exact rep_eq_of_card_le_one V rept (by omega) (hR f hf).1 (hR f hf).2

theorem KInv.step {V : Finset String} {P : List Edge} {st : KState} {e : Edge}
    (h : KInv V P st) (hs : e.src ∈ V) (hd : e.dest ∈ V) (hsn : e.src ≠ "")
    (hle : ∀ p ∈ P, p.weight ≤ e.weight) (fuel : Nat) (hfuel : V.card ≤ fuel) :
    ∃ s d, findRoot st.parent fuel e.src = some s ∧ findRoot st.parent fuel e.dest = some d ∧
      KInv V (P ++ [e])
        (if s ≠ d then
          ⟨fun k => if k = d then s else st.parent k, st.minSpanningTree ++ [e], st.count + 1⟩
        else st) := by
  obtain ⟨rep, dep, hF, hdep, hrep, hcard, hsub, hcov, hcount, hT⟩ := h
  have hpos : 0 < (V.image rep).card :=
    Finset.card_pos.mpr ⟨_, Finset.mem_image_of_mem _ hs⟩
  have hleK : ∀ k ∈ st.minSpanningTree, k.weight ≤ e.weight := fun k hk =>
    hle k (hsub.subset hk)
  refine ⟨rep e.src, rep e.dest,
    hF.findRoot fuel _ (by have := hdep e.src; omega),
    hF.findRoot fuel _ (by have := hdep e.dest; omega), ?_⟩
  by_cases hsd : rep e.src = rep e.dest
  · rw [if_neg (not_not.mpr hsd)]
    have hcov1 : ∀ f ∈ P ++ [e], rep f.src = rep f.dest := by
      intro f hf
      rcases List.mem_append.mp hf with hf | hf
      · exact hcov f hf
      · rw [List.mem_singleton.mp hf]; exact hsd
    exact ⟨rep, dep, hF, hdep, hrep, hcard, hsub.trans (List.sublist_append_left P [e]), hcov1,
      hcount, thresholds_step hT rep hcard hcov1 (Or.inl rfl) hleK⟩
  · rw [if_pos hsd]
    have hcov1 : ∀ f ∈ P ++ [e],
        mergeRep rep e.src e.dest f.src = mergeRep rep e.src e.dest f.dest := by
      intro f hf
      rcases List.mem_append.mp hf with hf | hf
      · have := hcov f hf
        simp [mergeRep, this]
      · rw [List.mem_singleton.mp hf]
        simp [mergeRep, hsd]
    have hcard1 : (V.image (mergeRep rep e.src e.dest)).card +
        (st.minSpanningTree ++ [e]).length = V.card := by
      have := card_image_mergeRep V rep hs hd hsd
      simp only [List.length_append, List.length_singleton]
      omega
    refine ⟨mergeRep rep e.src e.dest, fun x => if rep x = rep e.dest then dep x + 1 else dep x,
      hF.union hsn hsd, ?_, hrep.add_merge (fun x => by simp [or_comm]) hsd, hcard1,
      hsub.append (List.Sublist.refl [e]), hcov1, ?_, ?_⟩
    · intro x
      have := hdep x
      simp only [List.length_append, List.length_singleton]
      split_ifs <;> omega
    · simp only [hcount, List.length_append, List.length_singleton]
      push_cast
      rfl
    · refine thresholds_step hT _ hcard1 hcov1 (Or.inr rfl) ?_
      intro k hk
      rcases List.mem_append.mp hk with hk | hk
      · exact hleK k hk
      · rw [List.mem_singleton.mp hk]

theorem kruskalLoop_spec (V : Finset String) (fuel : Nat) (hfuel : V.card ≤ fuel)
    (numVertices : Int) (hn : numVertices = V.card) :
    ∀ (R P : List Edge) (st : KState), KInv V P st →
      (∀ e ∈ R, e.src ∈ V ∧ e.dest ∈ V ∧ e.src ≠ "") →
      (P ++ R).Pairwise (fun a b => a.weight ≤ b.weight) →
      ∃ mst, kruskalLoop fuel numVertices R st = some mst ∧ KPost V (P ++ R) mst := by
  intro R
  induction R with
  | nil =>
    intro P st h _ _
    obtain ⟨rep, dep, -, -, hrep, hcard, hsub, hcov, -, hT⟩ := h
    refine ⟨st.minSpanningTree, rfl, ?_⟩
    rw [List.append_nil]
    exact ⟨hsub, ⟨rep, hrep, hcard, Or.inl hcov⟩, hT⟩
  | cons e R ih =>
    intro P st h hV hsorted
    obtain ⟨hes, hed, hen⟩ := hV e (List.mem_cons_self _ _)
    have hVR : ∀ f ∈ R, f.src ∈ V ∧ f.dest ∈ V ∧ f.src ≠ "" := fun f hf =>
      hV f (List.mem_cons_of_mem _ hf)
    have hle : ∀ p ∈ P, p.weight ≤ e.weight := fun p hp =>
      (List.pairwise_append.mp hsorted).2.2 p hp e (List.mem_cons_self _ _)
    have hsorted1 : ((P ++ [e]) ++ R).Pairwise (fun a b => a.weight ≤ b.weight) := by
      rw [List.append_assoc]
      exact hsorted
    have hassoc : P ++ e :: R = (P ++ [e]) ++ R := by simp
    obtain ⟨s, d, hfs, hfd, h1⟩ := h.step hes hed hen hle fuel hfuel
    have hk : kruskalLoop fuel numVertices (e :: R) st =
        (fun st1 : KState =>
          if st1.count = numVertices - 1 then some st1.minSpanningTree
          else kruskalLoop fuel numVertices R st1)
        (if s ≠ d then
          ⟨fun k => if k = d then s else st.parent k, st.minSpanningTree ++ [e], st.count + 1⟩
        else st) := by
      simp only [kruskalLoop, hfs, hfd]
    rw [hk]
    generalize (if s ≠ d then
        (⟨fun k => if k = d then s else st.parent k, st.minSpanningTree ++ [e],
          st.count + 1⟩ : KState)
      else st) = st1 at h1 ⊢
    dsimp only
    split_ifs with hbreak
    · obtain ⟨rep1, dep1, -, -, hrep1, hcard1, hsub1, -, hcount1, hT1⟩ := h1
      have hlen : st1.minSpanningTree.length + 1 = V.card := by
        rw [hcount1, hn] at hbreak
        omega
      refine ⟨_, rfl, ?_, ⟨rep1, hrep1, hcard1, Or.inr hlen⟩, ?_⟩
      · rw [hassoc]
        exact hsub1.trans (List.sublist_append_left _ R)
      · rw [hassoc]
        refine thresholds_extend hT1 hlen (fun r hr => ⟨(hVR r hr).1, (hVR r hr).2.1⟩) ?_
        intro k hk r hr
        exact (List.pairwise_append.mp hsorted1).2.2 k (hsub1.subset hk) r hr
    · obtain ⟨mst, hm, hpost⟩ := ih (P ++ [e]) _ h1 hVR hsorted1
      exact ⟨mst, hm, by rw [hassoc]; exact hpost⟩

theorem mem_vertices {edges : List Edge} {e : Edge} (h : e ∈ edges) :
    e.src ∈ vertices edges ∧ e.dest ∈ vertices edges := by
  simp only [vertices, List.mem_dedup, List.mem_flatMap]
  exact ⟨⟨e, h, by simp⟩, ⟨e, h, by simp⟩⟩

theorem kinv_init (V : Finset String) : KInv V [] ⟨fun _ => "", [], 0⟩ := by
  refine ⟨id, fun _ => 0, forest_init, fun _ => le_refl _, represents_nil, by simp,
    List.Sublist.refl _, fun e he => absurd he (List.not_mem_nil e), rfl, ?_⟩
  intro t
  exact ⟨id, by simp, fun e he => absurd he (List.not_mem_nil e)⟩

/-- C20: for every list of edges over non-empty vertex names that forms a
connected graph on exactly numVertices distinct vertices, KruskalsAlgorithm
returns (each root search ending within numVertices steps) numVertices - 1 of
the input edges; they form a spanning tree of the graph, and no spanning tree
of the graph has a smaller total weight. -/
theorem kruskal_returns_minimum_spanning_tree (edges : List Edge) (numVertices : Int)
    (fuel : Nat) (hnames : ∀ e ∈ edges, e.src ≠ "" ∧ e.dest ≠ "")
    (hnum : numVertices = (vertices edges).length) (hconn : ConnectedGraph edges)
    (hfuel : (vertices edges).length ≤ fuel) :
    ∃ mst, KruskalsAlgorithm fuel edges numVertices = some mst ∧ mst.Subperm edges ∧
      (mst.length : Int) = numVertices - 1 ∧ IsSpanningTree edges mst ∧
      ∀ T, IsSpanningTree edges T → totalWeight mst ≤ totalWeight T := by
  obtain ⟨hne, hreach⟩ := hconn
  have hVcard : (vertices edges).toFinset.card = (vertices edges).length :=
    List.toFinset_card_of_nodup (List.nodup_dedup _)
  have hperm := insertionSort_perm edges
  have hsorted := insertionSort_sorted edges
  have hmemS : ∀ e, e ∈ insertionSort edges true ↔ e ∈ edges := fun e => hperm.mem_iff
  obtain ⟨mst, hm, hsub, ⟨rep, hrep, hcard, halt⟩, hT⟩ :=
    kruskalLoop_spec (vertices edges).toFinset fuel (by omega) numVertices (by rw [hnum, hVcard])
      (insertionSort edges true) [] _ (kinv_init _)
      (fun e he => by
        have hv := mem_vertices ((hmemS e).mp he)
        exact ⟨List.mem_toFinset.mpr hv.1, List.mem_toFinset.mpr hv.2,
          (hnames e ((hmemS e).mp he)).1⟩)
      (by simpa using hsorted)
  rw [List.nil_append] at hsub hT halt
  obtain ⟨v0, hv0⟩ := List.exists_mem_of_ne_nil _ hne
  have hpos : 0 < ((vertices edges).toFinset.image rep).card :=
    Finset.card_pos.mpr ⟨_, Finset.mem_image_of_mem _ (List.mem_toFinset.mpr hv0)⟩
  have hlen : mst.length + 1 = (vertices edges).length := by
    rcases halt with hcov | hl
    · have hall : ∀ u ∈ (vertices edges).toFinset, ∀ v ∈ (vertices edges).toFinset,
          rep u = rep v := by
        intro u hu v hv
        refine Reach.rep_eq ?_ (hreach u (List.mem_toFinset.mp hu) v (List.mem_toFinset.mp hv))
        intro e he
        exact hcov e ((hmemS e).mpr he)
      have := card_image_le_one _ rep hall
      omega
    · omega
  have hone : ((vertices edges).toFinset.image rep).card ≤ 1 := by omega
  have hmem : ∀ e ∈ mst, e ∈ edges := fun e he => (hmemS e).mp (hsub.subset he)
  refine ⟨mst, hm, hsub.subperm.trans hperm.subperm, by rw [hnum]; omega,
    ⟨hmem, hlen, ?_⟩, ?_⟩
  · intro u hu v hv
    exact (hrep u v).mpr (rep_eq_of_card_le_one _ rep hone (List.mem_toFinset.mpr hu)
      (List.mem_toFinset.mpr hv))
  · rintro T ⟨hTmem, hTlen, hTconn⟩
    apply totalWeight_le_of_thresholds mst T (by omega)
    intro t
    obtain ⟨rept, hc, hcov⟩ := hT t
    exact countP_le_of_thresholds _ T t rept _ (by omega)
      (fun u hu v hv => hTconn u (List.mem_toFinset.mp hu) v (List.mem_toFinset.mp hv)) hc
      (fun e he hw => hcov e ((hmemS e).mpr (hTmem e he)) hw)

/-- C20, on the triangle with the edges a-b of weight 2, b-c of weight 1 and
a-c of weight 3: the result is the edges b-c and a-b. -/
theorem kruskal_returns_minimum_spanning_tree_witness :
    KruskalsAlgorithm 3 [⟨"a", "b", 2⟩, ⟨"b", "c", 1⟩, ⟨"a", "c", 3⟩] 3 =
        some [⟨"b", "c", 1⟩, ⟨"a", "b", 2⟩] ∧
      ∃ mst, KruskalsAlgorithm 3 [⟨"a", "b", 2⟩, ⟨"b", "c", 1⟩, ⟨"a", "c", 3⟩] 3 = some mst ∧
        mst.Subperm [⟨"a", "b", 2⟩, ⟨"b", "c", 1⟩, ⟨"a", "c", 3⟩] ∧
        (mst.length : Int) = 3 - 1 ∧
        IsSpanningTree [⟨"a", "b", 2⟩, ⟨"b", "c", 1⟩, ⟨"a", "c", 3⟩] mst ∧
        ∀ T, IsSpanningTree [⟨"a", "b", 2⟩, ⟨"b", "c", 1⟩, ⟨"a", "c", 3⟩] T →
          totalWeight mst ≤ totalWeight T := by
  have hv : vertices [⟨"a", "b", 2⟩, ⟨"b", "c", 1⟩, ⟨"a", "c", 3⟩] = ["b", "a", "c"] := by
    decide
  have hab : Reach [⟨"a", "b", 2⟩, ⟨"b", "c", 1⟩, ⟨"a", "c", 3⟩] "a" "b" :=
    Reach.of_mem (e := ⟨"a", "b", 2⟩) (by decide)
  have hac : Reach [⟨"a", "b", 2⟩, ⟨"b", "c", 1⟩, ⟨"a", "c", 3⟩] "a" "c" :=
    Reach.of_mem (e := ⟨"a", "c", 3⟩) (by decide)
  have hfrom : ∀ u ∈ vertices [⟨"a", "b", 2⟩, ⟨"b", "c", 1⟩, ⟨"a", "c", 3⟩],
      Reach [⟨"a", "b", 2⟩, ⟨"b", "c", 1⟩, ⟨"a", "c", 3⟩] "a" u := by
    intro u hu
    rw [hv] at hu
    simp only [List.mem_cons, List.mem_singleton, List.not_mem_nil, or_false] at hu
    rcases hu with rfl | rfl | rfl
    · exact hab
    · exact Reach.refl _ _
    · exact hac
  exact ⟨by decide,
    kruskal_returns_minimum_spanning_tree [⟨"a", "b", 2⟩, ⟨"b", "c", 1⟩, ⟨"a", "c", 3⟩] 3 3
      (by decide) (by decide)
      ⟨by decide, fun u hu v hv => (hfrom u hu).symm.trans (hfrom v hv)⟩ (by decide)⟩

end graph
